import Mathlib

/-
Verification of the pricing / consensus / slip-construction core of the
apex-trading repository.  The Python modules

  * src/apex/backend/integrations/dfs/app/logic/strategy_engine.py
  * src/apex/backend/services/consensus_engine.py
  * src/apex/backend/integrations/dfs/app/logic/slip_optimizer.py

are shallowly embedded below.  Python floats are modelled by exact rationals
(every arithmetic operation these modules perform is a ratio of integers),
Python `round(x, d)` by round-half-to-even on rationals (`pyRound`/`roundTo`),
Python dicts by insertion-ordered association lists, and Python sets of leg
identities by `Finset`.  Record fields keep the source's names.
-/

namespace Apex

/-- Python `round` on a rational number: round half to even (banker's
rounding), returning an integer. -/
def pyRound (q : ℚ) : ℤ :=
  if q - ⌊q⌋ < 1/2 then ⌊q⌋
  else if 1/2 < q - ⌊q⌋ then ⌊q⌋ + 1
  else if 2 ∣ ⌊q⌋ then ⌊q⌋ else ⌊q⌋ + 1

/-- Python `round(q, d)`: round to `d` decimal digits, half to even. -/
def roundTo (q : ℚ) (d : ℕ) : ℚ :=
  (pyRound (q * 10 ^ d) : ℚ) / 10 ^ d

/-- Association-list lookup with decidable key equality; models Python's
`dict.get` on insertion-ordered dictionaries. -/
def alookup {K V : Type} [DecidableEq K] : List (K × V) → K → Option V
  | [], _ => none
  | (k', v) :: rest, k => if k' = k then some v else alookup rest k

/-- Stable insertion used by `sortStable`: `a` is placed before the first
element `b` with `r b a`. -/
def insertStable {α : Type} (r : α → α → Bool) (a : α) : List α → List α
  | [] => [a]
  | b :: bs => if r b a then a :: b :: bs else b :: insertStable r a bs

/-- Stable sort (insertion sort built with `foldr`).  With `r b a` meaning
"a may be placed before b" this reproduces Python's stable `list.sort`:
for a descending sort by key `k` take `r b a := k b ≤ k a`, for an ascending
sort take `r b a := k a ≤ k b`. -/
def sortStable {α : Type} (r : α → α → Bool) (l : List α) : List α :=
  l.foldr (insertStable r) []

/-- Minimum of a list of rationals (`0` for the empty list, which is never
used on an empty list below). -/
def listMin : List ℚ → ℚ
  | [] => 0
  | [a] => a
  | a :: b :: rest => min a (listMin (b :: rest))

/-- Maximum of a list of rationals. -/
def listMax : List ℚ → ℚ
  | [] => 0
  | [a] => a
  | a :: b :: rest => max a (listMax (b :: rest))

end Apex

namespace Apex.StrategyEngine

/-- `strategy_engine.american_to_implied`: American odds to implied
probability.  Note the `else` branch also covers `odds = 0`. -/
def american_to_implied (odds : ℤ) : ℚ :=
  if odds < 0 then (|odds| : ℤ) / ((|odds| : ℤ) + 100)
  else 100 / ((odds : ℚ) + 100)

/-- Result dictionary of `strategy_engine.calculate_edge`.  `opposing_prob`
is `None` when no opposing odds are supplied; the other keys are always set
before the function returns. -/
structure EdgeResult where
  sharp_prob : ℚ
  fixed_prob : ℚ
  opposing_prob : Option ℚ
  fair_prob : ℚ
  vig_pct : ℚ
  edge : ℚ
  deriving DecidableEq

/-- `strategy_engine.calculate_edge`.  The Python default
`fixed_implied_prob=None` reads a configured constant; it is modelled as an
explicit parameter.  `assumed_vig` defaults to `0.05 = 1/20` in the source. -/
def calculate_edge (sharp_odds : ℤ) (fixed_implied_prob : ℚ)
    (opposing_odds : Option ℤ) (assumed_vig : ℚ) : EdgeResult :=
  let sharp_prob := american_to_implied sharp_odds
  match opposing_odds with
  | some opp =>
      let opp_prob := american_to_implied opp
      let total_prob := sharp_prob + opp_prob
      let vig := total_prob - 1
      let fair_prob := sharp_prob / total_prob
      { sharp_prob := sharp_prob
        fixed_prob := fixed_implied_prob
        opposing_prob := some (roundTo opp_prob 4)
        fair_prob := roundTo fair_prob 4
        vig_pct := roundTo (vig * 100) 2
        edge := fair_prob - fixed_implied_prob }
  | none =>
      let assumed_total := 1 + max 0 assumed_vig
      let fair_prob := sharp_prob / assumed_total
      { sharp_prob := sharp_prob
        fixed_prob := fixed_implied_prob
        opposing_prob := none
        fair_prob := roundTo fair_prob 4
        vig_pct := roundTo (assumed_vig * 100) 2
        edge := fair_prob - fixed_implied_prob }

end Apex.StrategyEngine

namespace Apex.ConsensusEngine

/-- `consensus_engine.DEFAULT_WEIGHTS`. -/
def DEFAULT_WEIGHTS : List (String × ℚ) :=
  [("bookmaker", 4), ("pinnacle", 3), ("fanduel", 6), ("draftkings", 4),
   ("underdog", 0), ("sleeper", 0), ("prizepicks", 0)]

/-- `consensus_engine._ALIASES`. -/
def ALIASES : List (String × String) :=
  [("bookmaker", "bookmaker"), ("bookmakercom", "bookmaker"),
   ("bookmaker.eu", "bookmaker"), ("pinnacle", "pinnacle"),
   ("fanduel", "fanduel"), ("fanduelsportsbook", "fanduel"),
   ("draftkings", "draftkings"), ("draftkingssportsbook", "draftkings"),
   ("underdog", "underdog"), ("underdogfantasy", "underdog"),
   ("underdogsports", "underdog"), ("sleeper", "sleeper"),
   ("sleeperpicks", "sleeper"), ("prizepicks", "prizepicks"),
   ("prize_picks", "prizepicks")]

/-- `consensus_engine.canonical_book`: lowercase, keep alphanumerics plus
`.`/`_`, drop `_`, then apply the alias table. -/
def canonical_book (name : String) : String :=
  let compact : String :=
    String.mk ((((name.data.map Char.toLower).filter
      (fun c => c.isAlphanum || c == '.' || c == '_')).filter (fun c => c != '_')))
  (alookup ALIASES compact).getD compact

/-- `consensus_engine.american_to_implied` (same formula as the strategy
engine's copy; `odds = 0` falls into the `else` branch and yields 1). -/
def american_to_implied (odds : ℤ) : ℚ :=
  if odds < 0 then (|odds| : ℤ) / ((|odds| : ℤ) + 100)
  else 100 / ((odds : ℚ) + 100)

/-- `consensus_engine.implied_to_american`: clamp to
`[1e-6, 1 - 1e-6]`, invert the implied-probability formula and round to the
nearest integer. -/
def implied_to_american (prob : ℚ) : ℤ :=
  let p := max (1/1000000) (min (1 - 1/1000000) prob)
  if 1/2 ≤ p then pyRound (-100 * p / (1 - p))
  else pyRound (100 / p - 100)

/-- One input row of `_consensus_from_rows`: a book name and the odds field
(`none` models a missing or unparseable `odds` entry, which the source skips
via `try/except`). -/
structure Row where
  book : String
  odds : Option ℤ
  deriving DecidableEq

/-- `best_per_book` update step: keep, per canonical book, the quote whose
absolute odds are smallest; insertion order of first occurrence is kept,
matching Python dict semantics. -/
def updateBest (acc : List (String × ℤ)) (book : String) (odds : ℤ) :
    List (String × ℤ) :=
  match acc with
  | [] => [(book, odds)]
  | (b, o) :: rest =>
      if b = book then
        (if |odds| < |o| then (b, odds) :: rest else (b, o) :: rest)
      else (b, o) :: updateBest rest book odds

/-- The `best_per_book` dictionary of `_consensus_from_rows` (book key with
the retained odds; the retained record's other fields are unused there). -/
def bestPerBook (rows : List Row) : List (String × ℤ) :=
  rows.foldl
    (fun acc row =>
      match row.odds with
      | none => acc
      | some o => updateBest acc (canonical_book row.book) o)
    []

/-- `float(weights.get(book, 0.0))`. -/
def lw (weights : List (String × ℚ)) (book : String) : ℚ :=
  (alookup weights book).getD 0

/-- The `weighted_books` sub-dictionary: books with positive weight. -/
def weightedBooks (rows : List Row) (weights : List (String × ℚ)) :
    List (String × ℤ) :=
  (bestPerBook rows).filter (fun bo => 0 < lw weights bo.1)

/-- Implied probabilities of the contributing (weight &gt; 0) books. -/
def contributingProbs (rows : List Row) (weights : List (String × ℚ)) :
    List ℚ :=
  (weightedBooks rows weights).map (fun bo => american_to_implied bo.2)

/-- `max_weight = sum(float(v) for v in weights.values() if v > 0)`. -/
def maxWeight : List (String × ℚ) → ℚ
  | [] => 0
  | (_, v) :: rest => (if 0 < v then v else 0) + maxWeight rest

/-- One entry of the serialized `books` list. -/
structure BookEntry where
  book : String
  odds : ℤ
  weight : ℚ
  implied_prob_pct : ℚ
  deriving DecidableEq

/-- Descending order on `(weight, book)` used by `books.sort(..., reverse=True)`:
the new element may be placed before `x` when `(x.weight, x.book)` is at most
`(y.weight, y.book)` lexicographically. -/
def bookDescBefore (x y : BookEntry) : Bool :=
  x.weight < y.weight ∨ (x.weight = y.weight ∧ (x.book < y.book ∨ x.book = y.book))

/-- Output record of `_consensus_from_rows`. -/
structure ConsensusOut where
  consensus_prob : ℚ
  consensus_odds : ℤ
  books : List BookEntry
  books_used : ℕ
  total_weight : ℚ
  weight_coverage_pct : ℚ
  available_books : List String
  deriving DecidableEq

/-- `consensus_engine._consensus_from_rows`. -/
def _consensus_from_rows (rows : List Row) (weights : List (String × ℚ)) :
    Option ConsensusOut :=
  let bpb := bestPerBook rows
  if bpb = [] then none
  else
    let wb := weightedBooks rows weights
    if wb = [] then none
    else
      let weighted_prob_sum :=
        (wb.map (fun bo => american_to_implied bo.2 * lw weights bo.1)).sum
      let total_weight := (wb.map (fun bo => lw weights bo.1)).sum
      let books :=
        sortStable bookDescBefore
          (bpb.map (fun bo =>
            { book := bo.1
              odds := bo.2
              weight := lw weights bo.1
              implied_prob_pct := roundTo (american_to_implied bo.2 * 100) 2 }))
      if total_weight ≤ 0 then none
      else
        let consensus_prob := weighted_prob_sum / total_weight
        let max_weight := maxWeight weights
        some
          { consensus_prob := consensus_prob
            consensus_odds := implied_to_american consensus_prob
            books := books
            books_used := wb.length
            total_weight := roundTo total_weight 4
            weight_coverage_pct :=
              if 0 < max_weight then roundTo (total_weight / max_weight * 100) 2
              else 0
            available_books := books.map (fun b => b.book) }

/-- Proof device: drop every entry with key `k` from a weights dictionary
(for nodup keys this is ordinary key removal). -/
def werase : List (String × ℚ) → String → List (String × ℚ)
  | [], _ => []
  | (k0, v) :: rest, k =>
      if k0 = k then werase rest k else (k0, v) :: werase rest k

end Apex.ConsensusEngine

namespace Apex

/-- Concrete consensus output used by the C5 witness: one book "a" at −100
with weight 1. -/
def c5OutWitness : ConsensusEngine.ConsensusOut :=
  { consensus_prob := 1/2
    consensus_odds := -100
    books := [{ book := "a", odds := -100, weight := 1, implied_prob_pct := 50 }]
    books_used := 1
    total_weight := 1
    weight_coverage_pct := 100
    available_books := ["a"] }

/-- Python `str.lower()` (ASCII model). -/
def pyLower (s : String) : String := String.mk (s.data.map Char.toLower)

/-- Python `str.strip()`: drop leading and trailing whitespace. -/
def pyStrip (s : String) : String :=
  String.mk (((s.data.dropWhile Char.isWhitespace).reverse.dropWhile
    Char.isWhitespace).reverse)

end Apex

namespace Apex.SlipOptimizer

/-- One opportunity row consumed by the optimizer (a Python dict in the
source; the keys the optimizer reads are modelled as fields, with
`opposing_odds` optional and `available_on_sleeper_compatible` optional to
model key absence; `book_odds` keeps only the book names the availability
check inspects). -/
structure Opp where
  player_name : String
  market : String
  line : ℚ
  side : String
  edge_pct : ℚ
  books_used : ℚ
  weight_coverage_pct : ℚ
  sharp_odds : ℤ
  opposing_odds : Option ℤ
  available_on_sleeper_compatible : Option Bool
  book_odds : List String
  deriving DecidableEq

/-- A payout-table entry: power/standard modes map a leg count to a scalar
multiplier, flex/insured modes to a hits-to-multiplier table (Python's
`float | dict` union). -/
inductive Payout where
  | scalar (m : ℚ)
  | table (t : List (ℕ × ℚ))
  deriving DecidableEq

def prizepicksPower : List (ℕ × Payout) :=
  [(2, .scalar 3), (3, .scalar 5), (4, .scalar 10), (5, .scalar 20)]

def prizepicksFlex : List (ℕ × Payout) :=
  [(3, .table [(3, 9/4), (2, 5/4), (1, 0), (0, 0)]),
   (4, .table [(4, 5), (3, 3/2), (2, 0), (1, 0), (0, 0)]),
   (5, .table [(5, 10), (4, 2), (3, 2/5), (2, 0), (1, 0), (0, 0)]),
   (6, .table [(6, 25), (5, 2), (4, 2/5), (3, 0), (2, 0), (1, 0), (0, 0)])]

def underdogStandard : List (ℕ × Payout) :=
  [(3, .scalar 6), (4, .scalar 10), (5, .scalar 20), (6, .scalar 40)]

def underdogInsured : List (ℕ × Payout) :=
  [(3, .table [(3, 3), (2, 1), (1, 0), (0, 0)]),
   (4, .table [(4, 6), (3, 3/2), (2, 0), (1, 0), (0, 0)]),
   (5, .table [(5, 10), (4, 5/2), (3, 0), (2, 0), (1, 0), (0, 0)]),
   (6, .table [(6, 20), (5, 5/2), (4, 0), (3, 0), (2, 0), (1, 0), (0, 0)])]

/-- Sleeper power table: `{n: round(1.75 ** n, 2) for n in range(2, 7)}`. -/
def sleeperPower : List (ℕ × Payout) :=
  (List.range' 2 5).map (fun n => (n, Payout.scalar (roundTo ((7/4) ^ n) 2)))

/-- `slip_optimizer.BOOK_PAYOUTS` (insertion order preserved). -/
def BOOK_PAYOUTS : List (String × List (String × List (ℕ × Payout))) :=
  [("prizepicks", [("power", prizepicksPower), ("flex", prizepicksFlex)]),
   ("underdog", [("standard", underdogStandard), ("insured", underdogInsured)]),
   ("sleeper", [("power", sleeperPower)])]

/-- `slip_optimizer._LEGACY_PAYOUTS`. -/
def LEGACY_PAYOUTS : List (ℕ × ℚ) := [(2, 3), (3, 5), (4, 10), (5, 20), (6, 40)]

/-- `_LEGACY_PAYOUTS.get(n_legs, 2.0)`. -/
def legacyGet (n : ℕ) : ℚ := (alookup LEGACY_PAYOUTS n).getD 2

/-- `slip_optimizer.get_payout`. -/
def get_payout (book mode : String) (n_legs : ℕ) : Payout :=
  let book_data := (alookup BOOK_PAYOUTS book).getD []
  let mode_data := (alookup book_data mode).getD []
  if mode_data = [] then Payout.scalar (legacyGet n_legs)
  else (alookup mode_data n_legs).getD (Payout.scalar (legacyGet n_legs))

/-- `slip_optimizer.american_to_implied_prob`.  Note the branch order: the
`odds > 0` test comes first, so `odds = 0` lands in the absolute-value branch
and yields 0. -/
def american_to_implied_prob (odds : ℤ) : ℚ :=
  if 0 < odds then 100 / ((odds : ℚ) + 100)
  else (|odds| : ℤ) / (((|odds| : ℤ) : ℚ) + 100)

/-- `slip_optimizer.no_vig_prob`. -/
def no_vig_prob (main_odds : ℤ) (opposing_odds : Option ℤ) : ℚ :=
  let p_main := american_to_implied_prob main_odds
  match opposing_odds with
  | none => p_main
  | some opp =>
      let p_opp := american_to_implied_prob opp
      let total := p_main + p_opp
      if 0 < total then p_main / total else p_main

/-- `slip_optimizer.leg_confidence_weight`. -/
def leg_confidence_weight (player : Opp) : ℚ :=
  let edge_pct := |player.edge_pct|
  let edge_factor := min (7/20) (edge_pct / 100 * (7/4))
  let base : ℚ := if player.opposing_odds.isSome then 11/20 else 2/5
  max (1/5) (min (19/20) (base + edge_factor))

/-- `slip_optimizer.confidence_adjusted_prob`. -/
def confidence_adjusted_prob (probability confidence : ℚ) : ℚ :=
  1/2 + (probability - 1/2) * confidence

/-- `slip_optimizer._flex_ev`: binomial flex expected value over the average
adjusted leg probability, skipping zero multipliers. -/
def _flex_ev (leg_probs : List ℚ) (payout_table : List (ℕ × ℚ)) : ℚ :=
  let n := leg_probs.length
  let p_avg := if n ≠ 0 then leg_probs.sum / (n : ℚ) else 1/2
  (List.range (n + 1)).foldl
    (fun ev k =>
      let m := (alookup payout_table k).getD 0
      if m = 0 then ev
      else ev + (n.choose k : ℚ) * p_avg ^ k * (1 - p_avg) ^ (n - k) * m)
    (-1)

/-- `slip_optimizer.SlipCandidate`. -/
structure SlipCandidate where
  players : List Opp
  combined_edge : ℚ
  estimated_win_prob : ℚ
  expected_value : ℚ
  payout_multiplier : ℚ
  avg_leg_confidence : ℚ
  mode : String
  book : String
  deriving DecidableEq

/-- Largest key of a flex table (`max(payout_table)` in Python; the source
tables are never empty, the empty case is given the value 0). -/
def maxKey (t : List (ℕ × ℚ)) : ℕ := t.foldl (fun m kv => max m kv.1) 0

/-- The per-leg body of `calculate_slip_ev`'s loop: no-vig probability of the
leg's odds, shrunk toward a coin flip by the leg confidence. -/
def legProbOf (p : Opp) : ℚ :=
  confidence_adjusted_prob (no_vig_prob p.sharp_odds p.opposing_odds)
    (leg_confidence_weight p)

/-- `slip_optimizer.calculate_slip_ev`. -/
def calculate_slip_ev (players : List Opp) (slip_size : ℕ)
    (book mode : String) : SlipCandidate :=
  let payout_info := get_payout book mode slip_size
  let confidences := players.map leg_confidence_weight
  let leg_probs := players.map legProbOf
  let win_prob := leg_probs.foldl (fun acc lp => acc * lp) 1
  let avg_conf : ℚ :=
    if confidences.length ≠ 0 then confidences.sum / (confidences.length : ℚ)
    else 0
  match payout_info with
  | .table payout_table =>
      let expected_value := _flex_ev leg_probs payout_table
      let display_multiplier :=
        (alookup payout_table slip_size).getD
          ((alookup payout_table (maxKey payout_table)).getD 0)
      let breakeven_prob :=
        if 0 < display_multiplier then 1 / display_multiplier else 1
      { players := players
        combined_edge := (win_prob - breakeven_prob) * 100
        estimated_win_prob := win_prob
        expected_value := expected_value
        payout_multiplier := display_multiplier
        avg_leg_confidence := avg_conf
        mode := mode
        book := book }
  | .scalar payout_mult =>
      let expected_value := win_prob * payout_mult - 1
      let breakeven_prob := if 0 < payout_mult then 1 / payout_mult else 1
      { players := players
        combined_edge := (win_prob - breakeven_prob) * 100
        estimated_win_prob := win_prob
        expected_value := expected_value
        payout_multiplier := payout_mult
        avg_leg_confidence := avg_conf
        mode := mode
        book := book }

def sleeperNba : List String :=
  ["player_points", "player_rebounds", "player_assists",
   "player_threes", "player_blocks", "player_steals",
   "player_turnovers", "player_points_rebounds_assists",
   "player_points_rebounds", "player_points_assists",
   "player_rebounds_assists", "player_double_double",
   "player_blocks_steals", "player_triple_double"]

def sleeperNfl : List String :=
  ["player_pass_yds", "player_pass_tds", "player_pass_completions",
   "player_pass_attempts", "player_pass_interceptions",
   "player_rush_yds", "player_rush_attempts", "player_rush_tds",
   "player_receptions", "player_reception_yds", "player_reception_tds",
   "player_rush_reception_yds", "player_rush_reception_tds",
   "player_anytime_td", "player_kicking_points"]

def sleeperMlb : List String :=
  ["pitcher_strikeouts", "pitcher_outs", "batter_hits",
   "batter_total_bases", "batter_rbis", "batter_runs_scored",
   "batter_walks", "batter_stolen_bases", "batter_home_runs"]

def sleeperSoccer : List String :=
  ["player_shots", "player_shots_on_target", "player_goal_scorer_anytime"]

def sleeperMarkets : List (String × List String) :=
  [("nba", sleeperNba), ("nfl", sleeperNfl), ("mlb", sleeperMlb),
   ("soccer", sleeperSoccer)]

/-- PrizePicks markets: copy of Sleeper's with the mlb set extended
(`... | {"pitcher_hits_allowed", "pitcher_walks"}`). -/
def prizepicksMarkets : List (String × List String) :=
  [("nba", sleeperNba), ("nfl", sleeperNfl),
   ("mlb", sleeperMlb ++ ["pitcher_hits_allowed", "pitcher_walks"]),
   ("soccer", sleeperSoccer)]

/-- `slip_optimizer._DFS_BOOK_MARKETS` (underdog aliases prizepicks). -/
def DFS_BOOK_MARKETS : List (String × List (String × List String)) :=
  [("sleeper", sleeperMarkets), ("prizepicks", prizepicksMarkets),
   ("underdog", prizepicksMarkets)]

def CANON_ALIASES : List (String × String) :=
  [("sleeper", "sleeper"), ("prizepicks", "prizepicks"),
   ("underdog", "underdog"), ("underdogsports", "underdog"),
   ("draftkings", "draftkings"), ("fanduel", "fanduel"),
   ("betmgm", "betmgm"), ("mgm", "betmgm"),
   ("pinnacle", "pinnacle"), ("bookmaker", "bookmaker")]

/-- `slip_optimizer._canonical_book_name`: lowercase, keep alphanumerics,
apply the alias table. -/
def _canonical_book_name (book : String) : String :=
  let raw := String.mk ((book.data.map Char.toLower).filter Char.isAlphanum)
  (alookup CANON_ALIASES raw).getD raw

/-- Leg identity tuple: `(player, market, side, line)` after strip+lower
(`slip_optimizer._pick_identity`). -/
abbrev Ident := String × String × String × ℚ

def _pick_identity (p : Opp) : Ident :=
  (pyLower (pyStrip p.player_name), pyLower (pyStrip p.market),
   pyLower (pyStrip p.side), p.line)

/-- `slip_optimizer._row_quality`: `(edge_pct, books_used, coverage)`. -/
def _row_quality (p : Opp) : ℚ × ℚ × ℚ :=
  (p.edge_pct, p.books_used, p.weight_coverage_pct)

/-- Python `>` on 3-tuples of floats (lexicographic, strict). -/
def tripleGT (a b : ℚ × ℚ × ℚ) : Bool :=
  b.1 < a.1 ∨ (a.1 = b.1 ∧
    (b.2.1 < a.2.1 ∨ (a.2.1 = b.2.1 ∧ b.2.2 < a.2.2)))

/-- Python `<=` on 3-tuples of floats (lexicographic). -/
def tripleLE (a b : ℚ × ℚ × ℚ) : Bool :=
  a.1 < b.1 ∨ (a.1 = b.1 ∧
    (a.2.1 < b.2.1 ∨ (a.2.1 = b.2.1 ∧ (a.2.2 < b.2.2 ∨ a.2.2 = b.2.2))))

/-- Python `<=` on identity 4-tuples (code-point order on the strings),
used by `sorted` on combination keys. -/
def identLE (a b : Ident) : Bool :=
  a.1 < b.1 ∨ (a.1 = b.1 ∧
    (a.2.1 < b.2.1 ∨ (a.2.1 = b.2.1 ∧
      (a.2.2.1 < b.2.2.1 ∨ (a.2.2.1 = b.2.2.1 ∧
        (a.2.2.2 < b.2.2.2 ∨ a.2.2.2 = b.2.2.2))))))

/-- The `deduped[key] = p` update of the dedup dict: replace the stored row
when the new row's quality is strictly greater, keep insertion order. -/
def dedupUpdate (l : List (Ident × Opp)) (k : Ident) (p : Opp) :
    List (Ident × Opp) :=
  match l with
  | [] => [(k, p)]
  | (k0, p0) :: rest =>
      if k0 = k then
        (if tripleGT (_row_quality p) (_row_quality p0) then (k0, p) :: rest
         else (k0, p0) :: rest)
      else (k0, p0) :: dedupUpdate rest k p

/-- `slip_optimizer._overlap_ratio` on Python sets of identities (the name
avoids this file's naming constraints): Jaccard fraction
`|a ∩ b| / |a ∪ b|`, 0 for an empty side. -/
def overlapFrac (a b : Finset Ident) : ℚ :=
  if a = ∅ ∨ b = ∅ then 0
  else
    let union := (a ∪ b).card
    if union ≤ 0 then 0
    else ((a ∩ b).card : ℚ) / (union : ℚ)

/-- `itertools.combinations` in its enumeration order. -/
def combinations {α : Type} : List α → ℕ → List (List α)
  | _, 0 => [[]]
  | [], _ + 1 => []
  | x :: xs, n + 1 =>
      (combinations xs n).map (fun c => x :: c) ++ combinations xs (n + 1)

/-- The per-size inner loop of `generate_top_slips`: enumerate size-`size`
combinations, skip those with repeated (normalized) player names, skip
duplicate sorted identity keys via `combo_seen`, and price the rest. -/
def buildSizeCandidates (pool : List Opp) (size : ℕ) (book mode : String) :
    List SlipCandidate :=
  ((combinations pool size).foldl
    (fun (st : List (List Ident) × List SlipCandidate) combo =>
      let player_names := combo.map (fun p => pyLower (pyStrip p.player_name))
      if player_names.Nodup then
        let combo_key :=
          sortStable (fun b a => identLE a b) (combo.map _pick_identity)
        if combo_key ∈ st.1 then st
        else (combo_key :: st.1, st.2 ++ [calculate_slip_ev combo size book mode])
      else st)
    ([], [])).2

/-- The identity set of a candidate's legs (`{_pick_identity(p) for p in
cand.players}`). -/
def sigOf (cand : SlipCandidate) : Finset Ident :=
  (cand.players.map _pick_identity).toFinset

/-- The descending stable EV comparison used by the candidate sorts
(`sort(key=lambda c: c.expected_value, reverse=True)`). -/
def evBefore (b a : SlipCandidate) : Bool :=
  b.expected_value ≤ a.expected_value

/-- The diversification loop of `generate_top_slips`: walk the EV-sorted
candidates, skip any whose identity set has Jaccard overlap above 0.82 with
an already accepted one, stop once `top_n` are chosen. -/
def selectDiverse (top_n : ℕ) : List SlipCandidate → List SlipCandidate →
    List (Finset Ident) → List SlipCandidate
  | [], selected, _ => selected
  | cand :: rest, selected, selected_sets =>
      let sig := sigOf cand
      if selected_sets.any (fun prev => decide (82/100 < overlapFrac sig prev)) then
        selectDiverse top_n rest selected selected_sets
      else
        let selected' := selected ++ [cand]
        if top_n ≤ selected'.length then selected'
        else selectDiverse top_n rest selected' (selected_sets ++ [sig])

/-- One serialized player row of the result. -/
structure PlayerOut where
  player_name : String
  market : String
  line : ℚ
  side : String
  edge_pct : ℚ
  deriving DecidableEq

/-- One serialized result slip. -/
structure SlipOut where
  rank : ℕ
  slip_size : ℕ
  book : String
  mode : String
  players : List PlayerOut
  combined_edge_pct : ℚ
  win_probability_pct : ℚ
  payout_multiplier : ℚ
  expected_value_pct : ℚ
  avg_leg_confidence : ℚ
  deriving DecidableEq

def serializeOne (book mode : String) (rank : ℕ) (slip : SlipCandidate) :
    SlipOut :=
  { rank := rank
    slip_size := slip.players.length
    book := book
    mode := mode
    players := slip.players.map (fun p =>
      { player_name := p.player_name, market := p.market, line := p.line,
        side := p.side, edge_pct := p.edge_pct })
    combined_edge_pct := roundTo slip.combined_edge 2
    win_probability_pct := roundTo (slip.estimated_win_prob * 100) 2
    payout_multiplier := slip.payout_multiplier
    expected_value_pct := roundTo (slip.expected_value * 100) 2
    avg_leg_confidence := roundTo slip.avg_leg_confidence 4 }

/-- The serialization loop (`rank = len(results) + 1`). -/
def serializeSlips (book mode : String) : List SlipCandidate → ℕ → List SlipOut
  | [], _ => []
  | slip :: rest, n =>
      serializeOne book mode (n + 1) slip :: serializeSlips book mode rest (n + 1)

/-- The availability filter `_is_available` of `generate_top_slips`
(`canonical_book` is the book after the sleeper forcing, `book` the original
argument). -/
def _is_available (canonical_book book sport : String) (opp : Opp) : Bool :=
  let target := canonical_book
  if target = "sleeper" then
    match opp.available_on_sleeper_compatible with
    | some b => b
    | none =>
        match alookup ((alookup DFS_BOOK_MARKETS "sleeper").getD []) sport with
        | some allowed => allowed.contains opp.market
        | none => false
  else
    if (opp.book_odds.map _canonical_book_name).contains target then true
    else
      match alookup
          ((alookup DFS_BOOK_MARKETS target).getD
            ((alookup DFS_BOOK_MARKETS book).getD [])) sport with
      | some allowed => allowed.contains opp.market
      | none => true

/-- The final paragraph of `generate_top_slips`: early return on an empty
candidate pool, EV sort, diversification with its (unreachable) fallback,
serialization and the final `[:top_n]` cut. -/
def finishSlips (bookArg mode1 : String) (top_n : ℕ)
    (all_candidates : List SlipCandidate) : List SlipOut :=
  if all_candidates = [] then []
  else
    let sorted_all := sortStable evBefore all_candidates
    let selected0 := selectDiverse top_n sorted_all [] []
    let selected := if selected0 = [] then sorted_all.take top_n else selected0
    (serializeSlips bookArg mode1 selected 0).take top_n

/-- `slip_optimizer.generate_top_slips`.  `slip_sizes = None` defaults to
`[3, 4, 5, 6]` at the call site; `top_n` and the sizes are modelled as
naturals (Python slicing/`combinations` semantics for negative values are out
of scope); `prioritize_dfs_lines` is accepted and ignored as in the source. -/
def generate_top_slips (opportunities : List Opp) (slip_sizes : List ℕ)
    (top_n : ℕ) (min_edge : ℚ) (book mode sport : String)
    (prioritize_dfs_lines : Bool) : List SlipOut :=
  let canonical_book0 := _canonical_book_name book
  let canonical_book :=
    if canonical_book0 ≠ "sleeper" then "sleeper" else canonical_book0
  let mode0 := if canonical_book0 ≠ "sleeper" then "power" else mode
  let book_data :=
    (alookup BOOK_PAYOUTS canonical_book).getD ((alookup BOOK_PAYOUTS book).getD [])
  let mode1 :=
    if (alookup book_data mode0).isNone ∧ book_data ≠ [] then
      (match book_data with
       | [] => mode0
       | (m, _) :: _ => m)
    else mode0
  let eligible0 := opportunities.filter (fun p =>
    decide (min_edge ≤ p.edge_pct) && _is_available canonical_book book sport p)
  let deduped :=
    eligible0.foldl (fun acc p => dedupUpdate acc (_pick_identity p) p) []
  let eligible := deduped.map Prod.snd
  let sorted :=
    sortStable (fun b a => tripleLE (_row_quality b) (_row_quality a)) eligible
  let pool := sorted.take 24
  let bookArg := if canonical_book ≠ "" then canonical_book else book
  let all_candidates := slip_sizes.foldl
    (fun acc size =>
      if pool.length < size ∨ 6 < size then acc
      else
        let size_candidates := buildSizeCandidates pool size bookArg mode1
        if size_candidates = [] then acc
        else acc ++
          (sortStable evBefore size_candidates).take (max 10 (top_n * 6)))
    []
  finishSlips bookArg mode1 top_n all_candidates

/-- The three-leg example slip of the spec: per-leg adjusted probability 0.6
(sharp odds −300, no opposing price, zero edge) priced at multiplier 5. -/
def ex3 : List Opp :=
  let leg : Opp :=
    { player_name := "A", market := "player_points", line := 1, side := "over",
      edge_pct := 0, books_used := 2, weight_coverage_pct := 50,
      sharp_odds := -300, opposing_odds := none,
      available_on_sleeper_compatible := some true, book_odds := [] }
  [leg, { leg with player_name := "B" }, { leg with player_name := "C" }]

/-- Opportunity used by the C10 witness. -/
def c10Opp : Opp :=
  { player_name := "A", market := "player_points", line := 1, side := "over",
    edge_pct := 0, books_used := 2, weight_coverage_pct := 50,
    sharp_odds := -110, opposing_odds := none,
    available_on_sleeper_compatible := some true, book_odds := [] }

/-- Identity extraction on a serialized player row. -/
def pickIdentityOut (p : PlayerOut) : Ident :=
  (pyLower (pyStrip p.player_name), pyLower (pyStrip p.market),
   pyLower (pyStrip p.side), p.line)

/-- Identity set of a serialized result slip. -/
def sigOut (r : SlipOut) : Finset Ident := (r.players.map pickIdentityOut).toFinset

/-- Opportunity used by the C7 witness. -/
def c7Opp : Opp :=
  { player_name := "A", market := "player_points", line := 1, side := "over",
    edge_pct := 0, books_used := 2, weight_coverage_pct := 50,
    sharp_odds := -100, opposing_odds := none,
    available_on_sleeper_compatible := some true, book_odds := [] }

/-- The result slip produced for `[c7Opp]` with slip size 1. -/
def rC7 : SlipOut :=
  { rank := 1, slip_size := 1, book := "sleeper", mode := "power",
    players := [{ player_name := "A", market := "player_points", line := 1,
                  side := "over", edge_pct := 0 }],
    combined_edge_pct := 0, win_probability_pct := 50, payout_multiplier := 2,
    expected_value_pct := 0, avg_leg_confidence := 2/5 }

end Apex.SlipOptimizer

namespace Apex

theorem pyRound_le (q : ℚ) : (pyRound q : ℚ) ≤ q + 1/2 := by
  unfold pyRound
  have h0 := Int.floor_le q
  split
  · linarith
  · split
    · push_cast
      linarith [Int.lt_floor_add_one q]
    · split <;> · push_cast; linarith

theorem le_pyRound (q : ℚ) : q - 1/2 ≤ (pyRound q : ℚ) := by
  unfold pyRound
  have h0 := Int.floor_le q
  have h1 := Int.lt_floor_add_one q
  split
  · linarith
  · split
    · push_cast; linarith
    · split <;> · push_cast; linarith

theorem pyRound_nonneg {q : ℚ} (h : 0 ≤ q) : 0 ≤ pyRound q := by
  have hf : (0 : ℤ) ≤ ⌊q⌋ := Int.le_floor.mpr (by exact_mod_cast h)
  unfold pyRound
  split
  · exact hf
  · split
    · omega
    · split <;> omega

theorem pyRound_le_int {q : ℚ} {m : ℤ} (h : q < (m : ℚ) + 1/2) :
    pyRound q ≤ m := by
  have h2 : (pyRound q : ℚ) < (m : ℚ) + 1 := lt_of_le_of_lt (pyRound_le q) (by linarith)
  have h3 : pyRound q < m + 1 := by exact_mod_cast h2
  omega

theorem int_le_pyRound {q : ℚ} {m : ℤ} (h : (m : ℚ) - 1/2 < q) :
    m ≤ pyRound q := by
  have h2 : (m : ℚ) - 1 < (pyRound q : ℚ) := lt_of_lt_of_le (by linarith) (le_pyRound q)
  have h3 : m - 1 < pyRound q := by exact_mod_cast h2
  omega

theorem pyRound_intCast (n : ℤ) : pyRound (n : ℚ) = n := by
  unfold pyRound
  rw [Int.floor_intCast]
  simp

theorem roundTo_nonneg {q : ℚ} {d : ℕ} (h : 0 ≤ q) : 0 ≤ roundTo q d := by
  unfold roundTo
  have : (0 : ℤ) ≤ pyRound (q * 10 ^ d) :=
    pyRound_nonneg (by positivity)
  positivity

theorem alookup_mem {K V : Type} [DecidableEq K] {l : List (K × V)} {k : K}
    {v : V} (h : alookup l k = some v) : (k, v) ∈ l := by
  induction l with
  | nil => simp [alookup] at h
  | cons hd tl ih =>
    obtain ⟨k', v'⟩ := hd
    by_cases hk : k' = k
    · subst hk
      simp [alookup] at h
      simp [h]
    · simp [alookup, hk] at h
      exact List.mem_cons_of_mem _ (ih h)

theorem insertStable_perm {α : Type} (r : α → α → Bool) (a : α) (l : List α) :
    List.Perm (insertStable r a l) (a :: l) := by
  induction l with
  | nil => rfl
  | cons b bs ih =>
    unfold insertStable
    split
    · rfl
    · exact (ih.cons b).trans (List.Perm.swap a b bs)

theorem sortStable_perm {α : Type} (r : α → α → Bool) (l : List α) :
    List.Perm (sortStable r l) l := by
  induction l with
  | nil => rfl
  | cons a as ih => exact (insertStable_perm r a (sortStable r as)).trans (ih.cons a)

theorem mem_sortStable {α : Type} {r : α → α → Bool} {l : List α} {x : α} :
    x ∈ sortStable r l ↔ x ∈ l := (sortStable_perm r l).mem_iff

theorem sortStable_eq_nil {α : Type} {r : α → α → Bool} {l : List α}
    (h : sortStable r l = []) : l = [] :=
  List.eq_nil_of_length_eq_zero ((sortStable_perm r l).length_eq.symm.trans (by simp [h]))

theorem listMin_le {l : List ℚ} {x : ℚ} (h : x ∈ l) : listMin l ≤ x := by
  induction l with
  | nil => cases h
  | cons a rest ih =>
    cases rest with
    | nil => simp at h; simp [listMin, h]
    | cons b bs =>
      rcases List.mem_cons.mp h with rfl | hmem
      · exact min_le_left _ _
      · exact le_trans (min_le_right _ _) (ih hmem)

theorem le_listMax {l : List ℚ} {x : ℚ} (h : x ∈ l) : x ≤ listMax l := by
  induction l with
  | nil => cases h
  | cons a rest ih =>
    cases rest with
    | nil => simp at h; simp [listMax, h]
    | cons b bs =>
      rcases List.mem_cons.mp h with rfl | hmem
      · exact le_max_left _ _
      · exact le_trans (ih hmem) (le_max_right _ _)

end Apex

namespace Apex.StrategyEngine

theorem american_to_implied_pos (o : ℤ) : 0 < american_to_implied o := by
  unfold american_to_implied
  split
  · rename_i h
    have h1 : (|o| : ℤ) = -o := abs_of_neg h
    have h2 : (1 : ℚ) ≤ ((|o| : ℤ) : ℚ) := by
      have : (1 : ℤ) ≤ |o| := by omega
      exact_mod_cast this
    positivity
  · rename_i h
    push_neg at h
    have : (0 : ℚ) ≤ (o : ℚ) := by exact_mod_cast h
    positivity

theorem american_to_implied_le_one (o : ℤ) : american_to_implied o ≤ 1 := by
  unfold american_to_implied
  split
  · have h0 : (0 : ℤ) ≤ |o| := abs_nonneg o
    have h0' : (0 : ℚ) ≤ ((|o| : ℤ) : ℚ) := by exact_mod_cast h0
    rw [div_le_one (by linarith)]
    linarith
  · rename_i h
    push_neg at h
    have h0 : (0 : ℚ) ≤ (o : ℚ) := by exact_mod_cast h
    rw [div_le_one (by linarith)]
    linarith

theorem american_to_implied_lt_one {o : ℤ} (h : o ≠ 0) :
    american_to_implied o < 1 := by
  unfold american_to_implied
  split
  · have h0 : (0 : ℤ) ≤ |o| := abs_nonneg o
    have h0' : (0 : ℚ) ≤ ((|o| : ℤ) : ℚ) := by exact_mod_cast h0
    rw [div_lt_one (by linarith)]
    linarith
  · rename_i hge
    push_neg at hge
    have h1 : (1 : ℤ) ≤ o := by omega
    have h1' : (1 : ℚ) ≤ (o : ℚ) := by exact_mod_cast h1
    rw [div_lt_one (by linarith)]
    linarith

theorem american_to_implied_zero : american_to_implied 0 = 1 := by
  unfold american_to_implied
  norm_num

end Apex.StrategyEngine

namespace Apex.ConsensusEngine

theorem updateBest_keys (acc : List (String × ℤ)) (b : String) (o : ℤ) :
    (updateBest acc b o).map Prod.fst =
      (if b ∈ acc.map Prod.fst then acc.map Prod.fst
       else acc.map Prod.fst ++ [b]) := by
  induction acc with
  | nil => simp [updateBest]
  | cons hd tl ih =>
    obtain ⟨b0, o0⟩ := hd
    by_cases hb : b0 = b
    · subst hb
      by_cases habs : |o| < |o0| <;> simp [updateBest, habs]
    · simp only [updateBest, if_neg hb, List.map_cons, ih]
      have : (b ∈ b0 :: tl.map Prod.fst) ↔ (b ∈ tl.map Prod.fst) := by
        constructor
        · intro h
          rcases List.mem_cons.mp h with h1 | h1
          · exact absurd h1.symm hb
          · exact h1
        · exact List.mem_cons_of_mem _
      by_cases hmem : b ∈ tl.map Prod.fst
      · simp [hmem, this]
      · simp [hmem, this]

theorem updateBest_nodupKeys {acc : List (String × ℤ)} {b : String} {o : ℤ}
    (h : (acc.map Prod.fst).Nodup) : ((updateBest acc b o).map Prod.fst).Nodup := by
  rw [updateBest_keys]
  split
  · exact h
  · rename_i hmem
    simpa using List.Nodup.append h (List.nodup_singleton b)
      (by simpa using hmem)

theorem bestPerBook_nodupKeys (rows : List Row) :
    ((bestPerBook rows).map Prod.fst).Nodup := by
  unfold bestPerBook
  suffices h : ∀ (rs : List Row) (acc : List (String × ℤ)),
      (acc.map Prod.fst).Nodup →
      ((rs.foldl
        (fun acc row =>
          match row.odds with
          | none => acc
          | some o => updateBest acc (canonical_book row.book) o) acc).map
            Prod.fst).Nodup by
    exact h rows [] (by simp)
  intro rs
  induction rs with
  | nil => intro acc hacc; simpa using hacc
  | cons r rest ih =>
    intro acc hacc
    simp only [List.foldl_cons]
    cases r.odds with
    | none => exact ih acc hacc
    | some o => exact ih _ (updateBest_nodupKeys hacc)

theorem weightedBooks_sublist (rows : List Row) (weights : List (String × ℚ)) :
    (weightedBooks rows weights).Sublist (bestPerBook rows) :=
  List.filter_sublist _

theorem weightedBooks_nodupKeys (rows : List Row) (weights : List (String × ℚ)) :
    ((weightedBooks rows weights).map Prod.fst).Nodup :=
  ((weightedBooks_sublist rows weights).map Prod.fst).nodup (bestPerBook_nodupKeys rows)

theorem weightedBooks_pos {rows : List Row} {weights : List (String × ℚ)}
    {bo : String × ℤ} (h : bo ∈ weightedBooks rows weights) :
    0 < lw weights bo.1 := by
  have := List.mem_filter.mp h
  exact of_decide_eq_true this.2

theorem alookup_werase {w : List (String × ℚ)} {k k' : String} (h : k' ≠ k) :
    alookup (werase w k) k' = alookup w k' := by
  induction w with
  | nil => rfl
  | cons hd tl ih =>
    obtain ⟨k0, v0⟩ := hd
    by_cases hk : k0 = k
    · subst hk
      have hne : k0 ≠ k' := fun hc => h hc.symm
      simp only [werase, eq_self_iff_true, if_true]
      rw [ih]
      simp [alookup, hne]
    · simp only [werase, if_neg hk]
      by_cases hk' : k0 = k'
      · simp [alookup, hk']
      · simp [alookup, hk', ih]

theorem werase_of_notin {l : List (String × ℚ)} {k : String}
    (h : k ∉ l.map Prod.fst) : werase l k = l := by
  induction l with
  | nil => rfl
  | cons hd tl ih =>
    obtain ⟨k0, v0⟩ := hd
    simp only [List.map_cons, List.mem_cons, not_or] at h
    have hk0 : k0 ≠ k := fun hc => h.1 hc.symm
    simp only [werase, if_neg hk0]
    rw [ih h.2]

theorem maxWeight_nonneg (w : List (String × ℚ)) : 0 ≤ maxWeight w := by
  induction w with
  | nil => simp [maxWeight]
  | cons hd tl ih =>
    obtain ⟨k, v⟩ := hd
    simp only [maxWeight]
    split <;> linarith

theorem maxWeight_erase {w : List (String × ℚ)} {k : String} {v : ℚ}
    (hnd : (w.map Prod.fst).Nodup) (hv : alookup w k = some v) :
    maxWeight w = (if 0 < v then v else 0) + maxWeight (werase w k) := by
  induction w with
  | nil => simp [alookup] at hv
  | cons hd tl ih =>
    obtain ⟨k0, v0⟩ := hd
    simp only [List.map_cons, List.nodup_cons] at hnd
    by_cases hk : k0 = k
    · subst hk
      have hv0 : v0 = v := by simpa [alookup] using hv
      subst hv0
      simp only [maxWeight, werase, eq_self_iff_true, if_true]
      rw [werase_of_notin hnd.1]
    · have hv' : alookup tl k = some v := by simpa [alookup, hk] using hv
      simp only [werase, if_neg hk, maxWeight]
      rw [ih hnd.2 hv']
      ring

theorem lw_alookup {w : List (String × ℚ)} {b : String} (h : 0 < lw w b) :
    alookup w b = some (lw w b) := by
  unfold lw at *
  cases ha : alookup w b with
  | none => rw [ha] at h; simp at h
  | some v => simp [ha]

/-- The total weight of a set of distinct books, each carrying positive
weight, never exceeds the sum of all positive configured weights. -/
theorem total_le_maxWeight :
    ∀ (B : List (String × ℤ)) (w : List (String × ℚ)),
      (B.map Prod.fst).Nodup → (w.map Prod.fst).Nodup →
      (∀ bo ∈ B, 0 < lw w bo.1) →
      (B.map (fun bo => lw w bo.1)).sum ≤ maxWeight w := by
  intro B
  induction B with
  | nil => intro w _ _ _; simpa using maxWeight_nonneg w
  | cons hd tl ih =>
    intro w hB hw hpos
    obtain ⟨b, o⟩ := hd
    simp only [List.map_cons, List.nodup_cons] at hB
    have hlw : 0 < lw w b := hpos (b, o) (by simp)
    have ha : alookup w b = some (lw w b) := lw_alookup hlw
    have hmw : maxWeight w = lw w b + maxWeight (werase w b) := by
      rw [maxWeight_erase hw ha, if_pos hlw]
    have hcongr :
        tl.map (fun bo => lw w bo.1) = tl.map (fun bo => lw (werase w b) bo.1) := by
      apply List.map_congr_left
      intro bo hbo
      have hne : bo.1 ≠ b := by
        intro hc
        exact hB.1 (hc ▸ List.mem_map_of_mem Prod.fst hbo)
      unfold lw
      rw [alookup_werase hne]
    have hwe : ((werase w b).map Prod.fst).Nodup := by
      have hsub : (werase w b).Sublist w := by
        clear * -
        induction w with
        | nil => simp [werase]
        | cons hd tl ih =>
          obtain ⟨k0, v0⟩ := hd
          by_cases hk : k0 = b
          · simpa [werase, hk] using ih.cons (k0, v0)
          · simpa [werase, hk] using ih.cons₂ (k0, v0)
      exact (hsub.map Prod.fst).nodup hw
    have hpos' : ∀ bo ∈ tl, 0 < lw (werase w b) bo.1 := by
      intro bo hbo
      have hne : bo.1 ≠ b := by
        intro hc
        exact hB.1 (hc ▸ List.mem_map_of_mem Prod.fst hbo)
      unfold lw
      rw [alookup_werase hne]
      exact hpos bo (List.mem_cons_of_mem _ hbo)
    have := ih (werase w b) hB.2 hwe hpos'
    simp only [List.map_cons, List.sum_cons]
    rw [hcongr, hmw]
    linarith

/-- Weighted sums against nonnegative weights stay below the pointwise upper
bound times total weight. -/
theorem sum_mul_le_max (l : List (String × ℤ)) (w : List (String × ℚ)) (M : ℚ)
    (hw : ∀ bo ∈ l, 0 ≤ lw w bo.1)
    (hM : ∀ bo ∈ l, american_to_implied bo.2 ≤ M) :
    (l.map (fun bo => american_to_implied bo.2 * lw w bo.1)).sum ≤
      M * (l.map (fun bo => lw w bo.1)).sum := by
  induction l with
  | nil => simp
  | cons hd tl ih =>
    simp only [List.map_cons, List.sum_cons, mul_add]
    have h1 : american_to_implied hd.2 * lw w hd.1 ≤ M * lw w hd.1 :=
      mul_le_mul_of_nonneg_right (hM hd (by simp)) (hw hd (by simp))
    have h2 := ih (fun bo hbo => hw bo (List.mem_cons_of_mem _ hbo))
      (fun bo hbo => hM bo (List.mem_cons_of_mem _ hbo))
    linarith

theorem min_mul_le_sum (l : List (String × ℤ)) (w : List (String × ℚ)) (m : ℚ)
    (hw : ∀ bo ∈ l, 0 ≤ lw w bo.1)
    (hm : ∀ bo ∈ l, m ≤ american_to_implied bo.2) :
    m * (l.map (fun bo => lw w bo.1)).sum ≤
      (l.map (fun bo => american_to_implied bo.2 * lw w bo.1)).sum := by
  induction l with
  | nil => simp
  | cons hd tl ih =>
    simp only [List.map_cons, List.sum_cons, mul_add]
    have h1 : m * lw w hd.1 ≤ american_to_implied hd.2 * lw w hd.1 :=
      mul_le_mul_of_nonneg_right (hm hd (by simp)) (hw hd (by simp))
    have h2 := ih (fun bo hbo => hw bo (List.mem_cons_of_mem _ hbo))
      (fun bo hbo => hm bo (List.mem_cons_of_mem _ hbo))
    linarith

/-- Claim C5: whenever `_consensus_from_rows` produces a result, the
consensus probability lies within the closed interval `[min, max]` of the
implied probabilities of the contributing (weight &gt; 0) books, and
`weight_coverage_pct` lies in `[0, 100]`.  The weights dictionary is modelled
by an association list with distinct keys. -/
theorem claimC5_consensus_bounds (rows : List Row) (weights : List (String × ℚ))
    (out : ConsensusOut) (hw : (weights.map Prod.fst).Nodup)
    (h : _consensus_from_rows rows weights = some out) :
    listMin (contributingProbs rows weights) ≤ out.consensus_prob ∧
    out.consensus_prob ≤ listMax (contributingProbs rows weights) ∧
    0 ≤ out.weight_coverage_pct ∧ out.weight_coverage_pct ≤ 100 := by
  simp only [_consensus_from_rows] at h
  by_cases h1 : bestPerBook rows = []
  · rw [if_pos h1] at h; exact Option.noConfusion h
  rw [if_neg h1] at h
  by_cases h2 : weightedBooks rows weights = []
  · rw [if_pos h2] at h; exact Option.noConfusion h
  rw [if_neg h2] at h
  by_cases h3 :
      ((weightedBooks rows weights).map (fun bo => lw weights bo.1)).sum ≤ 0
  · rw [if_pos h3] at h; exact Option.noConfusion h
  rw [if_neg h3] at h
  push_neg at h3
  have hmw : 0 < maxWeight weights := by
    obtain ⟨bo, hbo⟩ := List.exists_mem_of_ne_nil _ h2
    have hpos := weightedBooks_pos hbo
    have ha := lw_alookup hpos
    have hmwe := maxWeight_erase hw ha
    rw [if_pos hpos] at hmwe
    have hnn := maxWeight_nonneg (werase weights bo.1)
    linarith
  have hout := Option.some.inj h
  subst hout
  set wb := weightedBooks rows weights with hwb
  set tw := (wb.map (fun bo => lw weights bo.1)).sum with htw
  have hw0 : ∀ bo ∈ wb, 0 ≤ lw weights bo.1 :=
    fun bo hbo => le_of_lt (weightedBooks_pos hbo)
  have hmin : ∀ bo ∈ wb, listMin (contributingProbs rows weights) ≤
      american_to_implied bo.2 := by
    intro bo hbo
    exact listMin_le (List.mem_map_of_mem _ hbo)
  have hmax : ∀ bo ∈ wb, american_to_implied bo.2 ≤
      listMax (contributingProbs rows weights) := by
    intro bo hbo
    exact le_listMax (List.mem_map_of_mem _ hbo)
  refine ⟨?_, ?_, ?_, ?_⟩
  · show listMin (contributingProbs rows weights) ≤ _ / tw
    rw [le_div_iff₀ h3]
    exact min_mul_le_sum wb weights _ hw0 hmin
  · show _ / tw ≤ listMax (contributingProbs rows weights)
    rw [div_le_iff₀ h3]
    exact sum_mul_le_max wb weights _ hw0 hmax
  · show 0 ≤ if 0 < maxWeight weights then roundTo (tw / maxWeight weights * 100) 2 else 0
    rw [if_pos hmw]
    apply roundTo_nonneg
    positivity
  · show (if 0 < maxWeight weights then roundTo (tw / maxWeight weights * 100) 2 else 0) ≤ 100
    rw [if_pos hmw]
    have htle : tw ≤ maxWeight weights :=
      total_le_maxWeight wb weights
        (weightedBooks_nodupKeys rows weights) hw
        (fun bo hbo => weightedBooks_pos hbo)
    have hratio : tw / maxWeight weights * 100 ≤ 100 := by
      have : tw / maxWeight weights ≤ 1 := by
        rw [div_le_one hmw]; exact htle
      linarith
    unfold roundTo
    have hpr : pyRound (tw / maxWeight weights * 100 * 10 ^ 2) ≤ 10000 := by
      apply pyRound_le_int
      push_cast
      nlinarith
    have hpr' : (pyRound (tw / maxWeight weights * 100 * 10 ^ 2) : ℚ) ≤ 10000 := by
      exact_mod_cast hpr
    rw [div_le_iff₀ (by norm_num : (0:ℚ) < 10 ^ 2)]
    linarith

theorem american_to_implied_eq_strategy (o : ℤ) :
    american_to_implied o = StrategyEngine.american_to_implied o := rfl

theorem consensus_implied_pos (o : ℤ) : 0 < american_to_implied o := by
  rw [american_to_implied_eq_strategy]
  exact StrategyEngine.american_to_implied_pos o

theorem consensus_implied_lt_one {o : ℤ} (h : o ≠ 0) :
    american_to_implied o < 1 := by
  rw [american_to_implied_eq_strategy]
  exact StrategyEngine.american_to_implied_lt_one h

/-- Round-trip kernel for C8: for any probability in `(0,1)`, converting to
integer American odds and back moves the probability by at most `1/100`. -/
theorem roundtrip_core {p : ℚ} (h0 : 0 < p) (h1 : p < 1) :
    |american_to_implied (implied_to_american p) - p| ≤ 1/100 := by
  unfold implied_to_american
  set P := max (1/1000000) (min (1 - 1/1000000) p) with hP
  have hPlo : (1/1000000 : ℚ) ≤ P := le_max_left _ _
  have hPhi : P ≤ 1 - 1/1000000 := by
    apply max_le
    · norm_num
    · exact min_le_left _ _
  have hPp : |P - p| ≤ 1/1000000 := by
    rw [hP]
    rcases le_total ((1:ℚ) - 1/1000000) p with hb | hb
    · rw [min_eq_left hb, max_eq_right (by norm_num)]
      rw [abs_le]
      constructor <;> linarith
    · rw [min_eq_right hb]
      rcases le_total p (1/1000000) with ha | ha
      · rw [max_eq_left ha, abs_le]
        constructor <;> linarith
      · rw [max_eq_right ha]
        simp
  have hPpos : (0:ℚ) < P := lt_of_lt_of_le (by norm_num) hPlo
  by_cases hge : (1/2 : ℚ) ≤ P
  · rw [if_pos hge]
    have h1P : (0:ℚ) < 1 - P := by linarith
    obtain ⟨e, he⟩ : ∃ e : ℚ, e = 100 * P / (1 - P) := ⟨_, rfl⟩
    have he100 : 100 ≤ e := by
      rw [he, le_div_iff₀ h1P]
      linarith
    have harg : -100 * P / (1 - P) = -e := by rw [he]; ring
    rw [harg]
    obtain ⟨a, ha⟩ : ∃ a : ℤ, a = pyRound (-e) := ⟨_, rfl⟩
    rw [← ha]
    have hub : (a : ℚ) ≤ -e + 1/2 := by
      have := pyRound_le (-e); rw [← ha] at this; linarith
    have hlb : -e - 1/2 ≤ (a : ℚ) := by
      have := le_pyRound (-e); rw [← ha] at this; linarith
    have haneg : a < 0 := by
      have hq : (a : ℚ) < 0 := by linarith
      exact_mod_cast hq
    simp only [american_to_implied]
    rw [if_pos haneg]
    have habsa : (|a| : ℤ) = -a := abs_of_neg haneg
    rw [habsa]
    have hcast : ((-a : ℤ) : ℚ) = -(a : ℚ) := by push_cast; ring
    rw [hcast]
    obtain ⟨A, hA⟩ : ∃ A : ℚ, A = -(a : ℚ) := ⟨_, rfl⟩
    rw [← hA]
    have hAlb : e - 1/2 ≤ A := by rw [hA]; linarith
    have hAub : A ≤ e + 1/2 := by rw [hA]; linarith
    have hA100 : (0:ℚ) < A + 100 := by linarith
    have hE100 : (0:ℚ) < e + 100 := by linarith
    have hkey : e / (e + 100) = P := by
      have hsum : e + 100 = 100 / (1 - P) := by
        rw [he, div_add' _ _ _ (ne_of_gt h1P)]
        congr 1
        ring
      rw [hsum, he, div_div_div_cancel_right₀ (ne_of_gt h1P)]
      ring
    have hdiff : A/(A+100) - e/(e+100) = 100*(A-e)/((A+100)*(e+100)) := by
      field_simp
      ring
    have habs2 : |A/(A+100) - e/(e+100)| ≤ 1/200 := by
      rw [hdiff, abs_div, abs_of_pos (by positivity : (0:ℚ) < (A+100)*(e+100))]
      have hnum : |100*(A-e)| ≤ 50 := by
        rw [abs_mul, abs_of_pos (by norm_num : (0:ℚ) < 100)]
        have hae : |A - e| ≤ 1/2 := abs_le.mpr ⟨by linarith, by linarith⟩
        linarith
      have hden : (10000:ℚ) ≤ (A+100)*(e+100) := by nlinarith
      calc |100*(A-e)| / ((A+100)*(e+100)) ≤ 50 / 10000 :=
            div_le_div (by norm_num) hnum (by norm_num) hden
        _ ≤ 1/200 := by norm_num
    have h4 : A/(A+100) - p = (A/(A+100) - e/(e+100)) + (P - p) := by
      rw [hkey]; ring
    rw [h4]
    calc |(A/(A+100) - e/(e+100)) + (P - p)| ≤
          |A/(A+100) - e/(e+100)| + |P - p| := abs_add _ _
      _ ≤ 1/200 + 1/1000000 := add_le_add habs2 hPp
      _ ≤ 1/100 := by norm_num
  · rw [if_neg hge]
    push_neg at hge
    obtain ⟨e, he⟩ : ∃ e : ℚ, e = 100 / P - 100 := ⟨_, rfl⟩
    rw [← he]
    have he100 : 100 < e := by
      have h200 : 200 < 100 / P := by
        rw [lt_div_iff₀ hPpos]
        linarith
      rw [he]
      linarith
    obtain ⟨a, ha⟩ : ∃ a : ℤ, a = pyRound e := ⟨_, rfl⟩
    rw [← ha]
    have hub : (a : ℚ) ≤ e + 1/2 := by
      have := pyRound_le e; rw [← ha] at this; linarith
    have hlb : e - 1/2 ≤ (a : ℚ) := by
      have := le_pyRound e; rw [← ha] at this; linarith
    have hapos : ¬ a < 0 := by
      have hq : (0 : ℚ) < (a : ℚ) := by linarith
      have h0a : 0 < a := by exact_mod_cast hq
      omega
    simp only [american_to_implied]
    rw [if_neg hapos]
    obtain ⟨A, hA⟩ : ∃ A : ℚ, A = (a : ℚ) := ⟨_, rfl⟩
    rw [← hA]
    have hAlb : e - 1/2 ≤ A := by rw [hA]; linarith
    have hAub : A ≤ e + 1/2 := by rw [hA]; linarith
    have hA100 : (0:ℚ) < A + 100 := by linarith
    have hE100 : (0:ℚ) < e + 100 := by linarith
    have hkey : 100 / (e + 100) = P := by
      have hsum : e + 100 = 100 / P := by rw [he]; ring
      rw [hsum, div_div_eq_mul_div]
      ring
    have hdiff : 100/(A+100) - 100/(e+100) = 100*(e-A)/((A+100)*(e+100)) := by
      field_simp
      ring
    have habs2 : |100/(A+100) - 100/(e+100)| ≤ 1/200 := by
      rw [hdiff, abs_div, abs_of_pos (by positivity : (0:ℚ) < (A+100)*(e+100))]
      have hnum : |100*(e-A)| ≤ 50 := by
        rw [abs_mul, abs_of_pos (by norm_num : (0:ℚ) < 100)]
        have hae : |e - A| ≤ 1/2 := abs_le.mpr ⟨by linarith, by linarith⟩
        linarith
      have hden : (10000:ℚ) ≤ (A+100)*(e+100) := by nlinarith
      calc |100*(e-A)| / ((A+100)*(e+100)) ≤ 50 / 10000 :=
            div_le_div (by norm_num) hnum (by norm_num) hden
        _ ≤ 1/200 := by norm_num
    have h4 : 100/(A+100) - p = (100/(A+100) - 100/(e+100)) + (P - p) := by
      rw [hkey]; ring
    rw [h4]
    calc |(100/(A+100) - 100/(e+100)) + (P - p)| ≤
          |100/(A+100) - 100/(e+100)| + |P - p| := abs_add _ _
      _ ≤ 1/200 + 1/1000000 := add_le_add habs2 hPp
      _ ≤ 1/100 := by norm_num

end Apex.ConsensusEngine

namespace Apex

theorem roundTo4_mem_unit {q : ℚ} (h0 : 0 < q) (h1 : q < 1) :
    0 ≤ roundTo q 4 ∧ roundTo q 4 ≤ 1 := by
  constructor
  · exact roundTo_nonneg (le_of_lt h0)
  · unfold roundTo
    have hpr : pyRound (q * 10^4) ≤ 10000 := by
      apply pyRound_le_int
      push_cast
      nlinarith
    have hpr' : (pyRound (q * 10^4) : ℚ) ≤ 10000 := by exact_mod_cast hpr
    rw [div_le_iff₀ (by norm_num : (0:ℚ) < 10^4)]
    linarith

/-- Claim C8: for every nonzero American odds the implied probability is
strictly between 0 and 1, and the round trip through the integer-rounded
inverse conversion (`implied_to_american`) reproduces the implied probability
to within 0.01. -/
theorem claimC8_roundtrip (o : ℤ) (h : o ≠ 0) :
    (0 < ConsensusEngine.american_to_implied o ∧
      ConsensusEngine.american_to_implied o < 1) ∧
    |ConsensusEngine.american_to_implied
        (ConsensusEngine.implied_to_american (ConsensusEngine.american_to_implied o)) -
      ConsensusEngine.american_to_implied o| ≤ 1/100 :=
  ⟨⟨ConsensusEngine.consensus_implied_pos o, ConsensusEngine.consensus_implied_lt_one h⟩,
   ConsensusEngine.roundtrip_core (ConsensusEngine.consensus_implied_pos o)
     (ConsensusEngine.consensus_implied_lt_one h)⟩

/-- Witness for C8 at odds −110. -/
theorem claimC8_witness :
    (0 < ConsensusEngine.american_to_implied (-110) ∧
      ConsensusEngine.american_to_implied (-110) < 1) ∧
    |ConsensusEngine.american_to_implied
        (ConsensusEngine.implied_to_american (ConsensusEngine.american_to_implied (-110))) -
      ConsensusEngine.american_to_implied (-110)| ≤ 1/100 :=
  claimC8_roundtrip (-110) (by decide)

/-- Claim C1 counterexample: the odds-to-implied-probability conversion does
not error at `odds = 0` — both copies return the value 1 — and a zero-odds
quote is not rejected: fed to the per-cell consensus computation it is
processed normally and contributes implied probability 1. -/
theorem claimC1_counterexample :
    StrategyEngine.american_to_implied 0 = 1 ∧
    ConsensusEngine.american_to_implied 0 = 1 ∧
    (ConsensusEngine._consensus_from_rows [{ book := "a", odds := some 0 }]
        [("a", 1)]).map ConsensusEngine.ConsensusOut.consensus_prob = some 1 := by
  refine ⟨StrategyEngine.american_to_implied_zero, ?_, ?_⟩
  · rw [ConsensusEngine.american_to_implied_eq_strategy]
    exact StrategyEngine.american_to_implied_zero
  · with_unfolding_all decide

/-- Claim C1 (amended): the conversion is total over all integers — the two
copies agree everywhere, `odds = 0` yields the value 1 instead of an error
(so a zero-odds quote flows through and never aborts its batch), and every
nonzero odds yields a probability strictly between 0 and 1. -/
theorem claimC1_amended (o : ℤ) :
    ConsensusEngine.american_to_implied o = StrategyEngine.american_to_implied o ∧
    (o = 0 → StrategyEngine.american_to_implied o = 1) ∧
    (o ≠ 0 → 0 < StrategyEngine.american_to_implied o ∧
      StrategyEngine.american_to_implied o < 1) := by
  refine ⟨rfl, ?_, ?_⟩
  · rintro rfl
    exact StrategyEngine.american_to_implied_zero
  · intro hne
    exact ⟨StrategyEngine.american_to_implied_pos o,
      StrategyEngine.american_to_implied_lt_one hne⟩

/-- Witness for the amended C1 at odds 0 and −140. -/
theorem claimC1_witness :
    StrategyEngine.american_to_implied 0 = 1 ∧
    (0 < StrategyEngine.american_to_implied (-140) ∧
      StrategyEngine.american_to_implied (-140) < 1) :=
  ⟨(claimC1_amended 0).2.1 rfl, (claimC1_amended (-140)).2.2 (by decide)⟩

/-- Witness for C5: a single book "a" quoting −100 under weights `{a: 1}`. -/
theorem claimC5_witness :
    listMin (ConsensusEngine.contributingProbs
        [{ book := "a", odds := some (-100) }] [("a", 1)]) ≤
      c5OutWitness.consensus_prob ∧
    c5OutWitness.consensus_prob ≤
      listMax (ConsensusEngine.contributingProbs
        [{ book := "a", odds := some (-100) }] [("a", 1)]) ∧
    0 ≤ c5OutWitness.weight_coverage_pct ∧
    c5OutWitness.weight_coverage_pct ≤ 100 :=
  ConsensusEngine.claimC5_consensus_bounds _ _ c5OutWitness (by decide)
    (by with_unfolding_all decide)

end Apex

namespace Apex.StrategyEngine

/-- Claim C2 counterexample: at sharp odds +100000000 against opposing odds
−1000000 the two implied probabilities sum below 1, so `vig_pct` is negative,
and the rounded `fair_prob` field collapses to 0, outside (0,1). -/
theorem claimC2_counterexample :
    (calculate_edge 100000000 (1/2) (some (-1000000)) (1/20)).vig_pct < 0 ∧
    (calculate_edge 100000000 (1/2) (some (-1000000)) (1/20)).fair_prob = 0 := by
  constructor
  · with_unfolding_all decide
  · with_unfolding_all decide

/-- Claim C2 (amended): for nonzero sharp odds (with the default assumed vig
of 0.05) the unrounded fair probability lies strictly in (0,1) — the stored
`fair_prob` field is its 4-decimal rounding and lies in [0,1] — while
`vig_pct` is nonnegative whenever the two implied probabilities sum to at
least 1, and equals 5 when no opposing odds are supplied. -/
theorem claimC2_amended (sharp : ℤ) (fixed : ℚ) (opposing : Option ℤ)
    (hs : sharp ≠ 0) :
    (∀ q, opposing = some q →
      1 ≤ american_to_implied sharp + american_to_implied q →
      0 ≤ (calculate_edge sharp fixed opposing (1/20)).vig_pct) ∧
    (opposing = none → (calculate_edge sharp fixed opposing (1/20)).vig_pct = 5) ∧
    (∃ fair : ℚ, 0 < fair ∧ fair < 1 ∧
      (calculate_edge sharp fixed opposing (1/20)).edge = fair - fixed ∧
      (calculate_edge sharp fixed opposing (1/20)).fair_prob = roundTo fair 4 ∧
      0 ≤ (calculate_edge sharp fixed opposing (1/20)).fair_prob ∧
      (calculate_edge sharp fixed opposing (1/20)).fair_prob ≤ 1) := by
  have hsp := american_to_implied_pos sharp
  have hsl := american_to_implied_lt_one hs
  cases opposing with
  | none =>
    have hmax : max (0:ℚ) (1/20) = 1/20 := by norm_num
    refine ⟨fun q hq => Option.noConfusion hq, ?_, ?_⟩
    · intro hnone
      show roundTo ((1/20) * 100) 2 = 5
      with_unfolding_all decide
    · refine ⟨american_to_implied sharp / (1 + max 0 (1/20)), ?_, ?_, rfl, rfl, ?_⟩
      · rw [hmax]; positivity
      · rw [hmax]
        have h21 : (0:ℚ) < 1 + 1/20 := by norm_num
        rw [div_lt_one h21]
        linarith
      · have hf0 : 0 < american_to_implied sharp / (1 + max 0 (1/20)) := by
          rw [hmax]; positivity
        have hf1 : american_to_implied sharp / (1 + max 0 (1/20)) < 1 := by
          rw [hmax]
          rw [div_lt_one (by norm_num : (0:ℚ) < 1 + 1/20)]
          linarith
        exact roundTo4_mem_unit hf0 hf1
  | some q =>
    have hop := american_to_implied_pos q
    have hol := american_to_implied_le_one q
    have htot : 0 < american_to_implied sharp + american_to_implied q := by linarith
    refine ⟨?_, fun hq => Option.noConfusion hq, ?_⟩
    · intro q' hq' hsum
      have hq'' : q' = q := by injection hq' with h; exact h.symm
      subst hq''
      show 0 ≤ roundTo ((american_to_implied sharp + american_to_implied q' - 1) * 100) 2
      apply roundTo_nonneg
      nlinarith
    · refine ⟨american_to_implied sharp /
        (american_to_implied sharp + american_to_implied q), ?_, ?_, rfl, rfl, ?_⟩
      · positivity
      · rw [div_lt_one htot]
        linarith
      · have hf0 : 0 < american_to_implied sharp /
            (american_to_implied sharp + american_to_implied q) := by positivity
        have hf1 : american_to_implied sharp /
            (american_to_implied sharp + american_to_implied q) < 1 := by
          rw [div_lt_one htot]; linarith
        exact roundTo4_mem_unit hf0 hf1

/-- Witness for the amended C2 at sharp −110 vs opposing −110. -/
theorem claimC2_witness :
    0 ≤ (calculate_edge (-110) (1/2) (some (-110)) (1/20)).vig_pct ∧
    (∃ fair : ℚ, 0 < fair ∧ fair < 1 ∧
      (calculate_edge (-110) (1/2) (some (-110)) (1/20)).edge = fair - 1/2 ∧
      (calculate_edge (-110) (1/2) (some (-110)) (1/20)).fair_prob = roundTo fair 4 ∧
      0 ≤ (calculate_edge (-110) (1/2) (some (-110)) (1/20)).fair_prob ∧
      (calculate_edge (-110) (1/2) (some (-110)) (1/20)).fair_prob ≤ 1) :=
  ⟨(claimC2_amended (-110) (1/2) (some (-110)) (by decide)).1 (-110) rfl
      (by with_unfolding_all decide),
   (claimC2_amended (-110) (1/2) (some (-110)) (by decide)).2.2⟩

/-- Claim C4: with no opposing odds the devig computation scales the raw
implied probability by `1/(1 + assumed_vig)` with the default
`assumed_vig = 0.05`; the returned edge is exactly that fair probability
minus the fixed implied probability (the stored `fair_prob` field is its
4-decimal rounding). -/
theorem claimC4_single_side_devig (o : ℤ) (fixed : ℚ) (h : o ≠ 0) :
    (calculate_edge o fixed none (1/20)).edge =
      american_to_implied o / (1 + 1/20) - fixed ∧
    (calculate_edge o fixed none (1/20)).fair_prob =
      roundTo (american_to_implied o / (1 + 1/20)) 4 := by
  have hmax : max (0:ℚ) (1/20) = 1/20 := by norm_num
  unfold calculate_edge
  rw [hmax]
  exact ⟨rfl, rfl⟩

/-- Witness for C4 at odds −110 against a fixed probability of 0.57. -/
theorem claimC4_witness :
    (calculate_edge (-110) (57/100) none (1/20)).edge =
      american_to_implied (-110) / (1 + 1/20) - 57/100 ∧
    (calculate_edge (-110) (57/100) none (1/20)).fair_prob =
      roundTo (american_to_implied (-110) / (1 + 1/20)) 4 :=
  claimC4_single_side_devig (-110) (57/100) (by decide)

end Apex.StrategyEngine

namespace Apex.SlipOptimizer

theorem legacyGet_pos (n : ℕ) : 0 < legacyGet n := by
  unfold legacyGet
  rcases h : alookup LEGACY_PAYOUTS n with _ | v
  · norm_num
  · have hm := alookup_mem h
    simp only [LEGACY_PAYOUTS, List.mem_cons, List.not_mem_nil, or_false,
      Prod.mk.injEq] at hm
    rcases hm with ⟨_, rfl⟩ | ⟨_, rfl⟩ | ⟨_, rfl⟩ | ⟨_, rfl⟩ | ⟨_, rfl⟩ <;> norm_num

theorem scalar_entry_pos (md : List (ℕ × Payout))
    (hmd : md = prizepicksPower ∨ md = prizepicksFlex ∨ md = underdogStandard ∨
      md = underdogInsured ∨ md = sleeperPower)
    {n : ℕ} {m : ℚ}
    (h : (alookup md n).getD (Payout.scalar (legacyGet n)) = Payout.scalar m) :
    0 < m := by
  rcases ha : alookup md n with _ | p
  · rw [ha] at h
    simp only [Option.getD_none, Payout.scalar.injEq] at h
    rw [← h]
    exact legacyGet_pos n
  · rw [ha] at h
    simp only [Option.getD_some] at h
    subst h
    have hm := alookup_mem ha
    rcases hmd with rfl | rfl | rfl | rfl | rfl
    · simp only [prizepicksPower, List.mem_cons, List.not_mem_nil, or_false,
        Prod.mk.injEq, Payout.scalar.injEq] at hm
      rcases hm with ⟨_, rfl⟩ | ⟨_, rfl⟩ | ⟨_, rfl⟩ | ⟨_, rfl⟩ <;> norm_num
    · simp only [prizepicksFlex, List.mem_cons, List.not_mem_nil, or_false,
        Prod.mk.injEq] at hm
      rcases hm with ⟨_, hf⟩ | ⟨_, hf⟩ | ⟨_, hf⟩ | ⟨_, hf⟩ <;> exact absurd hf (by simp)
    · simp only [underdogStandard, List.mem_cons, List.not_mem_nil, or_false,
        Prod.mk.injEq, Payout.scalar.injEq] at hm
      rcases hm with ⟨_, rfl⟩ | ⟨_, rfl⟩ | ⟨_, rfl⟩ | ⟨_, rfl⟩ <;> norm_num
    · simp only [underdogInsured, List.mem_cons, List.not_mem_nil, or_false,
        Prod.mk.injEq] at hm
      rcases hm with ⟨_, hf⟩ | ⟨_, hf⟩ | ⟨_, hf⟩ | ⟨_, hf⟩ <;> exact absurd hf (by simp)
    · simp only [sleeperPower, List.range', List.map_cons, List.map_nil,
        List.mem_cons, List.not_mem_nil, or_false, Prod.mk.injEq,
        Payout.scalar.injEq] at hm
      rcases hm with ⟨_, rfl⟩ | ⟨_, rfl⟩ | ⟨_, rfl⟩ | ⟨_, rfl⟩ | ⟨_, rfl⟩ <;>
        with_unfolding_all decide

/-- Every scalar multiplier `get_payout` can return is strictly positive. -/
theorem get_payout_scalar_pos {book mode : String} {n : ℕ} {m : ℚ}
    (h : get_payout book mode n = Payout.scalar m) : 0 < m := by
  simp only [get_payout] at h
  rcases hb : alookup BOOK_PAYOUTS book with _ | bd
  · rw [hb] at h
    simp only [Option.getD_none, alookup, Option.getD_none] at h
    rw [if_true] at h
    injection h with h'
    rw [← h']
    exact legacyGet_pos n
  · rw [hb] at h
    simp only [Option.getD_some] at h
    have hbm := alookup_mem hb
    simp only [BOOK_PAYOUTS, List.mem_cons, List.not_mem_nil, or_false,
      Prod.mk.injEq] at hbm
    rcases hbm with ⟨_, rfl⟩ | ⟨_, rfl⟩ | ⟨_, rfl⟩
    · rcases hmode : alookup [("power", prizepicksPower), ("flex", prizepicksFlex)] mode
        with _ | md
      · rw [hmode] at h
        simp only [Option.getD_none] at h
        rw [if_true] at h
        injection h with h'
        rw [← h']
        exact legacyGet_pos n
      · rw [hmode] at h
        simp only [Option.getD_some] at h
        have hmm := alookup_mem hmode
        simp only [List.mem_cons, List.not_mem_nil, or_false, Prod.mk.injEq] at hmm
        have hmd : md = prizepicksPower ∨ md = prizepicksFlex := by tauto
        rcases hmd with rfl | rfl
        · rw [if_neg (by simp [prizepicksPower])] at h
          exact scalar_entry_pos _ (by tauto) h
        · rw [if_neg (by simp [prizepicksFlex])] at h
          exact scalar_entry_pos _ (by tauto) h
    · rcases hmode : alookup [("standard", underdogStandard), ("insured", underdogInsured)] mode
        with _ | md
      · rw [hmode] at h
        simp only [Option.getD_none] at h
        rw [if_true] at h
        injection h with h'
        rw [← h']
        exact legacyGet_pos n
      · rw [hmode] at h
        simp only [Option.getD_some] at h
        have hmm := alookup_mem hmode
        simp only [List.mem_cons, List.not_mem_nil, or_false, Prod.mk.injEq] at hmm
        have hmd : md = underdogStandard ∨ md = underdogInsured := by tauto
        rcases hmd with rfl | rfl
        · rw [if_neg (by simp [underdogStandard])] at h
          exact scalar_entry_pos _ (by tauto) h
        · rw [if_neg (by simp [underdogInsured])] at h
          exact scalar_entry_pos _ (by tauto) h
    · rcases hmode : alookup [("power", sleeperPower)] mode with _ | md
      · rw [hmode] at h
        simp only [Option.getD_none] at h
        rw [if_true] at h
        injection h with h'
        rw [← h']
        exact legacyGet_pos n
      · rw [hmode] at h
        simp only [Option.getD_some] at h
        have hmm := alookup_mem hmode
        simp only [List.mem_cons, List.not_mem_nil, or_false, Prod.mk.injEq] at hmm
        have hmd : md = sleeperPower := hmm.2
        subst hmd
        rw [if_neg (by simp [sleeperPower, List.range'])] at h
        exact scalar_entry_pos _ (by tauto) h

/-- Claim C6: for every slip priced under a scalar (power/standard) payout
`m`, `calculate_slip_ev` returns win probability equal to the product of the
confidence-adjusted leg probabilities, expected value `win·m − 1` and
breakeven probability `1/m` (observable through
`combined_edge = (win − 1/m)·100`); in particular the spec's 3-leg example
(per-leg adjusted probability 0.6, multiplier 5) yields win probability
0.216, EV 0.08 and breakeven 0.2. -/
theorem claimC6_power_ev :
    (∀ (players : List Opp) (slip_size : ℕ) (book mode : String) (m : ℚ),
      get_payout book mode slip_size = Payout.scalar m →
      0 < m ∧
      (calculate_slip_ev players slip_size book mode).estimated_win_prob =
        (players.map legProbOf).prod ∧
      (calculate_slip_ev players slip_size book mode).expected_value =
        (players.map legProbOf).prod * m - 1 ∧
      (calculate_slip_ev players slip_size book mode).combined_edge =
        ((players.map legProbOf).prod - 1 / m) * 100) ∧
    ((ex3.map legProbOf).prod = 27/125 ∧
     (calculate_slip_ev ex3 3 "prizepicks" "power").estimated_win_prob = 27/125 ∧
     (calculate_slip_ev ex3 3 "prizepicks" "power").expected_value = 2/25 ∧
     (calculate_slip_ev ex3 3 "prizepicks" "power").payout_multiplier = 5 ∧
     (calculate_slip_ev ex3 3 "prizepicks" "power").combined_edge =
       (27/125 - 1/5) * 100) := by
  constructor
  · intro players slip_size book mode m h
    have hpos := get_payout_scalar_pos h
    refine ⟨hpos, ?_, ?_, ?_⟩
    · simp only [calculate_slip_ev, h]
      rw [List.prod_eq_foldl]
    · simp only [calculate_slip_ev, h]
      rw [List.prod_eq_foldl]
    · simp only [calculate_slip_ev, h]
      rw [if_pos hpos, List.prod_eq_foldl]
  · refine ⟨?_, ?_, ?_, ?_, ?_⟩ <;> with_unfolding_all decide

/-- Witness for C6 at the spec's 3-leg prizepicks power example. -/
theorem claimC6_witness :
    get_payout "prizepicks" "power" 3 = Payout.scalar 5 ∧
    (0 < (5:ℚ) ∧
     (calculate_slip_ev ex3 3 "prizepicks" "power").estimated_win_prob =
       (ex3.map legProbOf).prod ∧
     (calculate_slip_ev ex3 3 "prizepicks" "power").expected_value =
       (ex3.map legProbOf).prod * 5 - 1 ∧
     (calculate_slip_ev ex3 3 "prizepicks" "power").combined_edge =
       ((ex3.map legProbOf).prod - 1/5) * 100) :=
  ⟨by with_unfolding_all decide,
   claimC6_power_ev.1 ex3 3 "prizepicks" "power" 5 (by with_unfolding_all decide)⟩

/-- Claim C10: with no opposing odds, `no_vig_prob` returns the raw
vig-inclusive implied probability of the sharp odds unchanged — no assumed-vig
shrinkage — and that is exactly the probability `calculate_slip_ev` feeds into
the confidence adjustment. -/
theorem claimC10_no_shrinkage (p : Opp) (h : p.opposing_odds = none) :
    no_vig_prob p.sharp_odds p.opposing_odds = american_to_implied_prob p.sharp_odds ∧
    ∀ book mode : String,
      (calculate_slip_ev [p] 1 book mode).estimated_win_prob =
        confidence_adjusted_prob (american_to_implied_prob p.sharp_odds)
          (leg_confidence_weight p) := by
  have h1 : no_vig_prob p.sharp_odds p.opposing_odds =
      american_to_implied_prob p.sharp_odds := by
    rw [h]
    rfl
  refine ⟨h1, fun book mode => ?_⟩
  cases hpi : get_payout book mode 1 <;>
    simp only [calculate_slip_ev, hpi, legProbOf, List.map_cons, List.map_nil,
      List.foldl_cons, List.foldl_nil, one_mul, h1]

/-- Witness for C10 at sharp odds −110 without an opposing price. -/
theorem claimC10_witness :
    no_vig_prob c10Opp.sharp_odds c10Opp.opposing_odds =
      american_to_implied_prob c10Opp.sharp_odds ∧
    (calculate_slip_ev [c10Opp] 1 "sleeper" "power").estimated_win_prob =
      confidence_adjusted_prob (american_to_implied_prob c10Opp.sharp_odds)
        (leg_confidence_weight c10Opp) :=
  ⟨(claimC10_no_shrinkage c10Opp rfl).1,
   (claimC10_no_shrinkage c10Opp rfl).2 "sleeper" "power"⟩

theorem combinations_length {α : Type} :
    ∀ (l : List α) (n : ℕ) (c : List α), c ∈ combinations l n → c.length = n := by
  intro l
  induction l with
  | nil =>
    intro n c h
    cases n with
    | zero => simp only [combinations, List.mem_singleton] at h; simp [h]
    | succ k => simp [combinations] at h
  | cons x xs ih =>
    intro n c h
    cases n with
    | zero => simp only [combinations, List.mem_singleton] at h; simp [h]
    | succ k =>
      simp only [combinations, List.mem_append, List.mem_map] at h
      rcases h with ⟨c', hc', rfl⟩ | h
      · simp [ih k c' hc']
      · exact ih (k + 1) c h

theorem calculate_slip_ev_players (players : List Opp) (slip_size : ℕ)
    (book mode : String) :
    (calculate_slip_ev players slip_size book mode).players = players := by
  cases hpi : get_payout book mode slip_size <;> simp [calculate_slip_ev, hpi]

theorem calculate_slip_ev_book (players : List Opp) (slip_size : ℕ)
    (book mode : String) :
    (calculate_slip_ev players slip_size book mode).book = book := by
  cases hpi : get_payout book mode slip_size <;> simp [calculate_slip_ev, hpi]

theorem calculate_slip_ev_scalar_mult {players : List Opp} {slip_size : ℕ}
    {book mode : String} {m : ℚ}
    (h : get_payout book mode slip_size = Payout.scalar m) :
    (calculate_slip_ev players slip_size book mode).payout_multiplier = m := by
  simp [calculate_slip_ev, h]

theorem mem_buildSizeCandidates {pool : List Opp} {size : ℕ} {book mode : String}
    {c : SlipCandidate} (h : c ∈ buildSizeCandidates pool size book mode) :
    ∃ combo ∈ combinations pool size,
      (combo.map (fun p => pyLower (pyStrip p.player_name))).Nodup ∧
      c = calculate_slip_ev combo size book mode := by
  unfold buildSizeCandidates at h
  suffices haux :
      ∀ (combos : List (List Opp)) (st : List (List Ident) × List SlipCandidate),
        c ∈ (combos.foldl
          (fun (st : List (List Ident) × List SlipCandidate) combo =>
            let player_names := combo.map (fun p => pyLower (pyStrip p.player_name))
            if player_names.Nodup then
              let combo_key :=
                sortStable (fun b a => identLE a b) (combo.map _pick_identity)
              if combo_key ∈ st.1 then st
              else (combo_key :: st.1,
                st.2 ++ [calculate_slip_ev combo size book mode])
            else st) st).2 →
        c ∈ st.2 ∨ ∃ combo ∈ combos,
          (combo.map (fun p => pyLower (pyStrip p.player_name))).Nodup ∧
          c = calculate_slip_ev combo size book mode by
    rcases haux (combinations pool size) ([], []) h with hc | hc
    · simp at hc
    · exact hc
  intro combos
  induction combos with
  | nil => intro st h'; exact Or.inl h'
  | cons combo rest ih =>
    intro st h'
    simp only [List.foldl_cons] at h'
    rcases ih _ h' with hmem | ⟨combo', hc1, hc2, hc3⟩
    · by_cases hnd : (combo.map (fun p => pyLower (pyStrip p.player_name))).Nodup
      · simp only [if_pos hnd] at hmem
        by_cases hk :
            sortStable (fun b a => identLE a b) (combo.map _pick_identity) ∈ st.1
        · simp only [if_pos hk] at hmem
          exact Or.inl hmem
        · simp only [if_neg hk, List.mem_append, List.mem_singleton] at hmem
          rcases hmem with hmem | rfl
          · exact Or.inl hmem
          · exact Or.inr ⟨combo, List.mem_cons_self _ _, hnd, rfl⟩
      · simp only [if_neg hnd] at hmem
        exact Or.inl hmem
    · exact Or.inr ⟨combo', List.mem_cons_of_mem _ hc1, hc2, hc3⟩

theorem mem_sizesFold (pool : List Opp) (bookArg mode1 : String) (top_n : ℕ) :
    ∀ (sizes : List ℕ) (acc : List SlipCandidate) (c : SlipCandidate),
      c ∈ sizes.foldl
        (fun acc size =>
          if pool.length < size ∨ 6 < size then acc
          else
            let size_candidates := buildSizeCandidates pool size bookArg mode1
            if size_candidates = [] then acc
            else acc ++
              (sortStable evBefore size_candidates).take (max 10 (top_n * 6)))
        acc →
      c ∈ acc ∨ ∃ size ∈ sizes, c ∈ buildSizeCandidates pool size bookArg mode1 := by
  intro sizes
  induction sizes with
  | nil => intro acc c h; exact Or.inl h
  | cons size rest ih =>
    intro acc c h
    simp only [List.foldl_cons] at h
    rcases ih _ c h with hmem | ⟨size', hs1, hs2⟩
    · by_cases hguard : pool.length < size ∨ 6 < size
      · rw [if_pos hguard] at hmem
        exact Or.inl hmem
      · simp only [if_neg hguard] at hmem
        by_cases hempty : buildSizeCandidates pool size bookArg mode1 = []
        · rw [if_pos hempty] at hmem
          exact Or.inl hmem
        · rw [if_neg hempty] at hmem
          rcases List.mem_append.mp hmem with hmem | hmem
          · exact Or.inl hmem
          · have := mem_sortStable.mp (List.take_subset _ _ hmem)
            exact Or.inr ⟨size, List.mem_cons_self _ _, this⟩
    · exact Or.inr ⟨size', List.mem_cons_of_mem _ hs1, hs2⟩

theorem mem_selectDiverse (top_n : ℕ) :
    ∀ (cands sel : List SlipCandidate) (sets : List (Finset Ident))
      (c : SlipCandidate), c ∈ selectDiverse top_n cands sel sets →
      c ∈ sel ∨ c ∈ cands := by
  intro cands
  induction cands with
  | nil => intro sel sets c h; exact Or.inl h
  | cons cand rest ih =>
    intro sel sets c h
    simp only [selectDiverse] at h
    split at h
    · rcases ih _ _ _ h with h1 | h1
      · exact Or.inl h1
      · exact Or.inr (List.mem_cons_of_mem _ h1)
    · split at h
      · rcases List.mem_append.mp h with h1 | h1
        · exact Or.inl h1
        · exact Or.inr (List.mem_cons.mpr (Or.inl (List.mem_singleton.mp h1)))
      · rcases ih _ _ _ h with h1 | h1
        · rcases List.mem_append.mp h1 with h2 | h2
          · exact Or.inl h2
          · exact Or.inr (List.mem_cons.mpr (Or.inl (List.mem_singleton.mp h2)))
        · exact Or.inr (List.mem_cons_of_mem _ h1)

theorem mem_serializeSlips {book mode : String} :
    ∀ (l : List SlipCandidate) (n : ℕ) (r : SlipOut),
      r ∈ serializeSlips book mode l n →
      ∃ s ∈ l, ∃ k, r = serializeOne book mode k s := by
  intro l
  induction l with
  | nil => intro n r h; simp [serializeSlips] at h
  | cons s rest ih =>
    intro n r h
    simp only [serializeSlips, List.mem_cons] at h
    rcases h with rfl | h
    · exact ⟨s, List.mem_cons_self _ _, n + 1, rfl⟩
    · obtain ⟨s', hs', k, hk⟩ := ih (n + 1) r h
      exact ⟨s', List.mem_cons_of_mem _ hs', k, hk⟩

theorem overlapFrac_comm (a b : Finset Ident) :
    overlapFrac a b = overlapFrac b a := by
  unfold overlapFrac
  rw [Finset.union_comm, Finset.inter_comm]
  by_cases h : a = ∅ ∨ b = ∅
  · rw [if_pos h, if_pos h.symm]
  · rw [if_neg h, if_neg (show ¬(b = ∅ ∨ a = ∅) from fun hc => h hc.symm)]

theorem sigOut_serializeOne (book mode : String) (k : ℕ) (s : SlipCandidate) :
    sigOut (serializeOne book mode k s) = sigOf s := by
  simp only [sigOut, serializeOne, sigOf, List.map_map]
  rfl

theorem selectDiverse_pairwise (top_n : ℕ) :
    ∀ (cands sel : List SlipCandidate) (sets : List (Finset Ident)),
      sets = sel.map sigOf →
      sel.Pairwise (fun x y => overlapFrac (sigOf x) (sigOf y) ≤ 82/100) →
      (selectDiverse top_n cands sel sets).Pairwise
        (fun x y => overlapFrac (sigOf x) (sigOf y) ≤ 82/100) := by
  intro cands
  induction cands with
  | nil => intro sel sets hsets hp; exact hp
  | cons cand rest ih =>
    intro sel sets hsets hp
    simp only [selectDiverse]
    split
    · exact ih sel sets hsets hp
    · rename_i hany
      have hforall : ∀ s ∈ sel, overlapFrac (sigOf s) (sigOf cand) ≤ 82/100 := by
        intro s hs
        have hmem : sigOf s ∈ sets := hsets ▸ List.mem_map_of_mem sigOf hs
        have hno : ∀ x ∈ sets, ¬ (82/100 < overlapFrac (sigOf cand) x) := by
          intro x hx hgt
          exact hany (by
            rw [List.any_eq_true]
            exact ⟨x, hx, by simpa using hgt⟩)
        have := hno (sigOf s) hmem
        rw [overlapFrac_comm]
        linarith [not_lt.mp this]
      have hp' : (sel ++ [cand]).Pairwise
          (fun x y => overlapFrac (sigOf x) (sigOf y) ≤ 82/100) := by
        rw [List.pairwise_append]
        refine ⟨hp, List.pairwise_singleton _ _, ?_⟩
        intro a ha b hb
        rw [List.mem_singleton] at hb
        subst hb
        exact hforall a ha
      split
      · exact hp'
      · exact ih (sel ++ [cand]) (sets ++ [sigOf cand])
          (by rw [hsets, List.map_append, List.map_singleton]) hp'

theorem selectDiverse_ne_nil (top_n : ℕ) :
    ∀ (cands sel : List SlipCandidate) (sets : List (Finset Ident)),
      sets = sel.map sigOf → (sel ≠ [] ∨ cands ≠ []) →
      selectDiverse top_n cands sel sets ≠ [] := by
  intro cands
  induction cands with
  | nil =>
    intro sel sets hsets hne
    rcases hne with h | h
    · exact h
    · exact absurd rfl h
  | cons cand rest ih =>
    intro sel sets hsets hne
    simp only [selectDiverse]
    split
    · rename_i hany
      apply ih sel sets hsets
      left
      rw [List.any_eq_true] at hany
      obtain ⟨x, hx, _⟩ := hany
      rw [hsets] at hx
      intro hselnil
      subst hselnil
      simp at hx
    · split
      · simp
      · apply ih (sel ++ [cand]) _
          (by rw [hsets, List.map_append, List.map_singleton])
        left
        simp

theorem serializeSlips_pairwise {book mode : String} :
    ∀ (sel : List SlipCandidate) (n : ℕ),
      sel.Pairwise (fun x y => overlapFrac (sigOf x) (sigOf y) ≤ 82/100) →
      (serializeSlips book mode sel n).Pairwise
        (fun r1 r2 => overlapFrac (sigOut r1) (sigOut r2) ≤ 82/100) := by
  intro sel
  induction sel with
  | nil => intro n _; simp [serializeSlips]
  | cons s rest ih =>
    intro n hp
    rw [List.pairwise_cons] at hp
    simp only [serializeSlips]
    rw [List.pairwise_cons]
    constructor
    · intro r hr
      obtain ⟨s', hs', k, rfl⟩ := mem_serializeSlips rest (n + 1) r hr
      rw [sigOut_serializeOne, sigOut_serializeOne]
      exact hp.1 s' hs'
    · exact ih (n + 1) hp.2

theorem finishSlips_pairwise (bookArg mode1 : String) (top_n : ℕ)
    (all_candidates : List SlipCandidate) :
    (finishSlips bookArg mode1 top_n all_candidates).Pairwise
      (fun r1 r2 => overlapFrac (sigOut r1) (sigOut r2) ≤ 82/100) := by
  unfold finishSlips
  by_cases hac : all_candidates = []
  · rw [if_pos hac]
    exact List.Pairwise.nil
  · rw [if_neg hac]
    dsimp only
    have hSA : sortStable evBefore all_candidates ≠ [] :=
      fun hc => hac (sortStable_eq_nil hc)
    have hselne : selectDiverse top_n (sortStable evBefore all_candidates) [] [] ≠ [] :=
      selectDiverse_ne_nil top_n _ [] [] rfl (Or.inr hSA)
    rw [if_neg hselne]
    have hpw := selectDiverse_pairwise top_n (sortStable evBefore all_candidates)
      [] [] rfl List.Pairwise.nil
    exact ((serializeSlips_pairwise _ 0 hpw).sublist (List.take_sublist _ _))

/-- Claim C3: in every result list of `generate_top_slips`, no two slips
have leg-identity-set Jaccard overlap strictly greater than 0.82.  The
diversification fallback (lines 390–391 of the source) can never fire — the
greedy walk always accepts the first candidate, and the list is nonempty past
the early return — so the bound holds unconditionally and the claim's
exception clause is vacuous. -/
theorem claimC3_diversification (opportunities : List Opp)
    (slip_sizes : List ℕ) (top_n : ℕ) (min_edge : ℚ)
    (book mode sport : String) (flag : Bool) :
    (generate_top_slips opportunities slip_sizes top_n min_edge book mode sport
        flag).Pairwise
      (fun r1 r2 => overlapFrac (sigOut r1) (sigOut r2) ≤ 82/100) := by
  simp only [generate_top_slips]
  exact finishSlips_pairwise _ _ _ _

theorem mem_finishSlips {bookArg mode1 : String} {top_n : ℕ}
    {ac : List SlipCandidate} {r : SlipOut}
    (h : r ∈ finishSlips bookArg mode1 top_n ac) :
    ∃ s ∈ ac, ∃ k, r = serializeOne bookArg mode1 k s := by
  unfold finishSlips at h
  by_cases hac : ac = []
  · rw [if_pos hac] at h
    simp at h
  · rw [if_neg hac] at h
    dsimp only at h
    have h2 := List.take_subset _ _ h
    by_cases hsel : selectDiverse top_n (sortStable evBefore ac) [] [] = []
    · rw [if_pos hsel] at h2
      obtain ⟨s, hs, k, hk⟩ := mem_serializeSlips _ _ _ h2
      exact ⟨s, mem_sortStable.mp (List.take_subset _ _ hs), k, hk⟩
    · rw [if_neg hsel] at h2
      obtain ⟨s, hs, k, hk⟩ := mem_serializeSlips _ _ _ h2
      rcases mem_selectDiverse _ _ _ _ _ hs with h3 | h3
      · simp at h3
      · exact ⟨s, mem_sortStable.mp h3, k, hk⟩

/-- Every result row of `generate_top_slips` is the serialization of a
candidate priced from a duplicate-free combination of some requested size. -/
theorem generate_top_slips_shape {opportunities : List Opp}
    {slip_sizes : List ℕ} {top_n : ℕ} {min_edge : ℚ}
    {book mode sport : String} {flag : Bool} {r : SlipOut}
    (hr : r ∈ generate_top_slips opportunities slip_sizes top_n min_edge book
      mode sport flag) :
    ∃ (bookArg mode1 : String) (pool combo : List Opp) (size k : ℕ),
      size ∈ slip_sizes ∧ combo ∈ combinations pool size ∧
      (combo.map (fun p => pyLower (pyStrip p.player_name))).Nodup ∧
      r = serializeOne bookArg mode1 k (calculate_slip_ev combo size bookArg mode1) := by
  simp only [generate_top_slips] at hr
  obtain ⟨s, hs, k, hk⟩ := mem_finishSlips hr
  rcases mem_sizesFold _ _ _ _ _ _ _ hs with h0 | ⟨size, hsize, hbc⟩
  · simp at h0
  · obtain ⟨combo, hcombo, hnd, rfl⟩ := mem_buildSizeCandidates hbc
    exact ⟨_, _, _, combo, size, k, hsize, hcombo, hnd, hk⟩

theorem sleeper_power_scalar (n : ℕ) :
    ∃ m, get_payout "sleeper" "power" n = Payout.scalar m := by
  simp only [get_payout]
  have h1 : alookup BOOK_PAYOUTS "sleeper" = some [("power", sleeperPower)] := rfl
  have h2 : alookup [("power", sleeperPower)] "power" = some sleeperPower := rfl
  simp only [h1, Option.getD_some, h2]
  rw [if_neg (by simp [sleeperPower, List.range'])]
  rcases ha : alookup sleeperPower n with _ | p
  · exact ⟨legacyGet n, by simp⟩
  · simp only [Option.getD_some]
    have hm := alookup_mem ha
    simp only [sleeperPower, List.range', List.map_cons, List.map_nil,
      List.mem_cons, List.not_mem_nil, or_false, Prod.mk.injEq] at hm
    rcases hm with ⟨_, rfl⟩ | ⟨_, rfl⟩ | ⟨_, rfl⟩ | ⟨_, rfl⟩ | ⟨_, rfl⟩ <;>
      exact ⟨_, rfl⟩

/-- Claim C7 counterexample: requesting slip size 0 makes `generate_top_slips`
return a slip whose leg list is empty (an empty combination is legal for the
enumerator, prices at the legacy multiplier, and survives selection). -/
theorem claimC7_counterexample :
    (generate_top_slips [] [0] 5 0 "sleeper" "power" "nba" false).map
      SlipOut.players = [[]] := by
  with_unfolding_all decide

/-- Claim C7 (amended): every slip returned by `generate_top_slips` has
pairwise-distinct player names (compared case-insensitively after stripping
whitespace, as the source does) and a reported `slip_size` equal to its
number of legs; the leg list is nonempty provided every requested slip size
is at least 1 (a requested size of 0 yields an empty-legged slip). -/
theorem claimC7_amended (opportunities : List Opp) (slip_sizes : List ℕ)
    (top_n : ℕ) (min_edge : ℚ) (book mode sport : String) (flag : Bool)
    (r : SlipOut)
    (hr : r ∈ generate_top_slips opportunities slip_sizes top_n min_edge book
      mode sport flag) :
    (r.players.map (fun p => pyLower (pyStrip p.player_name))).Nodup ∧
    r.slip_size = r.players.length ∧
    ((∀ s ∈ slip_sizes, 1 ≤ s) → r.players ≠ []) := by
  obtain ⟨bookArg, mode1, pool, combo, size, k, hsize, hcombo, hnd, rfl⟩ :=
    generate_top_slips_shape hr
  refine ⟨?_, ?_, ?_⟩
  · simp only [serializeOne, calculate_slip_ev_players, List.map_map]
    exact hnd
  · simp only [serializeOne, List.length_map]
  · intro hpos
    simp only [serializeOne, calculate_slip_ev_players]
    have hlen := combinations_length pool size combo hcombo
    have h1 : 1 ≤ size := hpos size hsize
    intro hc
    rw [List.map_eq_nil] at hc
    rw [hc] at hlen
    simp at hlen
    omega

/-- Witness for the amended C7 on a one-opportunity pool with size 1. -/
theorem claimC7_witness :
    (rC7.players.map (fun p => pyLower (pyStrip p.player_name))).Nodup ∧
    rC7.slip_size = rC7.players.length ∧ rC7.players ≠ [] :=
  have h := claimC7_amended [c7Opp] [1] 5 0 "sleeper" "power" "nba" false rC7
    (by with_unfolding_all decide)
  ⟨h.1, h.2.1, h.2.2 (by decide)⟩

/-- Claim C9: when the requested book does not canonicalize to "sleeper",
`generate_top_slips` silently replaces book and mode, so every returned slip
carries book "sleeper", mode "power", and is priced with Sleeper's power
payout table (a scalar multiplier for its size). -/
theorem claimC9_book_forcing (opportunities : List Opp) (slip_sizes : List ℕ)
    (top_n : ℕ) (min_edge : ℚ) (book mode sport : String) (flag : Bool)
    (r : SlipOut) (hb : _canonical_book_name book ≠ "sleeper")
    (hr : r ∈ generate_top_slips opportunities slip_sizes top_n min_edge book
      mode sport flag) :
    r.book = "sleeper" ∧ r.mode = "power" ∧
    get_payout "sleeper" "power" r.slip_size = Payout.scalar r.payout_multiplier := by
  have h1 : alookup BOOK_PAYOUTS "sleeper" = some [("power", sleeperPower)] := rfl
  have h2 : alookup [("power", sleeperPower)] "power" = some sleeperPower := rfl
  have hba : (if ("sleeper" : String) ≠ "" then "sleeper" else book) = "sleeper" :=
    if_pos (by decide)
  simp only [generate_top_slips, if_pos hb, h1, Option.getD_some, h2,
    Option.isNone_some, Bool.false_eq_true, false_and, if_false, hba] at hr
  obtain ⟨s, hs, k, rfl⟩ := mem_finishSlips hr
  rcases mem_sizesFold _ _ _ _ _ _ _ hs with h0 | ⟨size, hsize, hbc⟩
  · simp at h0
  · obtain ⟨combo, hcombo, hnd, rfl⟩ := mem_buildSizeCandidates hbc
    refine ⟨rfl, rfl, ?_⟩
    have hlen : (serializeOne "sleeper" "power" k
        (calculate_slip_ev combo size "sleeper" "power")).slip_size = size := by
      simp only [serializeOne, calculate_slip_ev_players]
      exact combinations_length _ _ _ hcombo
    obtain ⟨mval, hm⟩ := sleeper_power_scalar size
    have hmult : (serializeOne "sleeper" "power" k
        (calculate_slip_ev combo size "sleeper" "power")).payout_multiplier = mval := by
      simp only [serializeOne]
      exact calculate_slip_ev_scalar_mult hm
    rw [hlen, hmult]
    exact hm

/-- Witness for C9: the same one-opportunity pool requested for book
"prizepicks" still comes back priced as sleeper power. -/
theorem claimC9_witness :
    rC7.book = "sleeper" ∧ rC7.mode = "power" ∧
    get_payout "sleeper" "power" rC7.slip_size = Payout.scalar rC7.payout_multiplier :=
  claimC9_book_forcing [c7Opp] [1] 5 0 "prizepicks" "flex" "nba" false rC7
    (by decide) (by with_unfolding_all decide)

end Apex.SlipOptimizer
